import Mathlib

/-!
# VoroX foam dynamics engine: a shallow embedding in Lean 4

This file embeds the core of the VoroX foam dynamics engine
(`src/js/vorox2/core.js`, `src/js/vorox2/edgeGraph.js`, the foam variant with
`detectKnots`, and the XPBD projection loop of `src/js/VoroXAdapter.js`) and
proves or refutes the specified properties about it.

Modelling conventions:
* JS numbers used as real quantities are modelled by `ℚ` (exact arithmetic);
  JS 32-bit integer operations (`>>> 0`, `^`, hash mixing) are modelled by
  `ℕ` with explicit `% 2^32`.
* The transcendental operations `Math.sqrt`/`Math.hypot` and the fixed angular
  tolerance `sin(1e-6)` (arising from the gate `acos c > π/2 + 1e-6`, i.e.
  `c < -sin(1e-6)`) have no exact rational value; they are abstracted into a
  `NumModel` parameter, with the facts actually used (positivity on positive
  inputs, `sqrt 0 = 0`, tolerance in `(0,1)`) taken as hypotheses.
* JS `Map` objects are modelled by association lists with JS insertion-order
  semantics; JS arrays indexed by integers are modelled by lists or by
  functions, as noted at each definition.
-/

namespace VoroX

/-! ## Tetrahedra, faces, and `buildFacetPairs` (core.js lines 110-133)

A facet slot is a pair `(ti, fi)` of a tetrahedron index and a local face
index; the JS code stores the same data as `[fi, ti]` entries. -/

/-- A tetrahedron: an ordered quadruple of point indices. -/
structure Tet where
  v0 : ℕ
  v1 : ℕ
  v2 : ℕ
  v3 : ℕ
deriving DecidableEq, Repr

/-- The four faces of a tetrahedron in the order used by `buildFacetPairs`
(`facesOf` in `core.js`): `[[v0,v1,v2],[v0,v1,v3],[v0,v2,v3],[v1,v2,v3]]`.
Note face `fi` omits vertex position `3 - fi`. -/
def facesOf (t : Tet) : List (List ℕ) :=
  [[t.v0, t.v1, t.v2], [t.v0, t.v1, t.v3], [t.v0, t.v2, t.v3], [t.v1, t.v2, t.v3]]

/-- Ascending numeric sort, modelling the comparator sort
`[a,b,c].slice().sort((x,y)=>x-y)` in `keyOf`. -/
def sortNum (l : List ℕ) : List ℕ := l.insertionSort (fun a b => a ≤ b)

/-- The face key (`keyOf`) of facet slot `s = (ti, fi)`: the numerically
sorted vertex triple.  The JS string `a-b-c` is modelled by the sorted list
itself; the decimal join with `-` is injective on 3-element lists, so key
equality agrees. -/
def slotKey (tets : List Tet) (s : ℕ × ℕ) : List ℕ :=
  sortNum ((facesOf (tets.getD s.1 ⟨0, 0, 0, 0⟩)).getD s.2 [])

/-- All facet slots in JS traversal order: tetrahedron index outer,
face index `0..3` inner. -/
def allSlots (tets : List Tet) : List (ℕ × ℕ) :=
  (List.range tets.length).flatMap (fun ti => (List.range 4).map (fun fi => (ti, fi)))

/-- All slots sharing a given face key, in traversal order.  This is the
group that `faceMap.get(k)` holds after the first loop of `buildFacetPairs`. -/
def keyGroup (tets : List Tet) (k : List ℕ) : List (ℕ × ℕ) :=
  (allSlots tets).filter (fun s => slotKey tets s = k)

/-- Number of occurrences of face key `k` among all faces of all tetrahedra. -/
def faceKeyCount (tets : List Tet) (k : List ℕ) : ℕ :=
  (keyGroup tets k).length

/-- `faceMap.get(k).push(v)` with JS `Map` semantics: append to the existing
entry for `k`, otherwise append a fresh entry at the end. -/
def mapPush {K V : Type} [DecidableEq K] (m : List (K × List V)) (k : K) (v : V) :
    List (K × List V) :=
  match m with
  | [] => [(k, [v])]
  | (k2, vs) :: rest =>
    if k2 = k then (k2, vs ++ [v]) :: rest else (k2, vs) :: mapPush rest k v

/-- `faceMap.get(k)` (with `[]` for a missing key). -/
def grpLookup {K V : Type} [DecidableEq K] (m : List (K × List V)) (k : K) : List V :=
  match m with
  | [] => []
  | (k2, vs) :: rest => if k2 = k then vs else grpLookup rest k

/-- The `faceMap` of `buildFacetPairs`: every facet slot pushed under its
face key, in traversal order. -/
def faceMapOf (tets : List Tet) : List (List ℕ × List (ℕ × ℕ)) :=
  (allSlots tets).foldl (fun m s => mapPush m (slotKey tets s) s) []

/-- A mirror record `{face, tet}` as stored in the `pairs` table. -/
structure Mirror where
  face : ℕ
  tet : ℕ
deriving DecidableEq, Repr

/-- The second loop body of `buildFacetPairs`: for a group of exactly two
slots, write each slot's mirror; otherwise leave the table unchanged.  The
JS code performs the write for `s1` first and `s2` second, so the `s2` write
wins on (impossible in practice) collisions; the `if` order reflects that. -/
def writePairs (p : ℕ × ℕ → Option Mirror) (g : List (ℕ × ℕ)) : ℕ × ℕ → Option Mirror :=
  match g with
  | [s1, s2] => fun s =>
      if s = s2 then some ⟨s1.2, s1.1⟩
      else if s = s1 then some ⟨s2.2, s2.1⟩
      else p s
  | _ => p

/-- `buildFacetPairs` (core.js): the face-adjacency table, modelled as a
function from slots `(ti, fi)` to an optional mirror (JS: a `null`-filled
`tets.length × 4` array; out-of-range reads are `none` either way). -/
def buildFacetPairs (tets : List Tet) : ℕ × ℕ → Option Mirror :=
  ((faceMapOf tets).map (fun e => e.2)).foldl writePairs (fun _ => none)

/-! ### Characterization of `buildFacetPairs` -/

theorem grpLookup_mapPush {K V : Type} [DecidableEq K]
    (m : List (K × List V)) (k k2 : K) (v : V) :
    grpLookup (mapPush m k v) k2 =
      if k = k2 then grpLookup m k2 ++ [v] else grpLookup m k2 := by
  induction m with
  | nil =>
    by_cases h : k = k2 <;> simp [mapPush, grpLookup, h]
  | cons e rest ih =>
    obtain ⟨k3, vs⟩ := e
    by_cases h3 : k3 = k
    · subst h3
      by_cases h2 : k3 = k2
      · subst h2; simp [mapPush, grpLookup]
      · simp [mapPush, grpLookup, h2]
    · by_cases h2 : k3 = k2
      · subst h2
        have hne : ¬ k = k3 := fun h => h3 h.symm
        simp [mapPush, grpLookup, h3, hne]
      · simp [mapPush, grpLookup, h3, h2, ih]

theorem grpLookup_foldl_mapPush {K V : Type} [DecidableEq K]
    (key : V → K) (l : List V) (m0 : List (K × List V)) (k : K) :
    grpLookup (l.foldl (fun m s => mapPush m (key s) s) m0) k =
      grpLookup m0 k ++ l.filter (fun s => key s = k) := by
  induction l generalizing m0 with
  | nil => simp
  | cons s rest ih =>
    simp only [List.foldl_cons, ih, List.filter_cons]
    by_cases h : key s = k
    · simp [grpLookup_mapPush, h]
    · simp [grpLookup_mapPush, h]

theorem grpLookup_faceMapOf (tets : List Tet) (k : List ℕ) :
    grpLookup (faceMapOf tets) k = keyGroup tets k := by
  unfold faceMapOf keyGroup
  rw [grpLookup_foldl_mapPush]
  simp [grpLookup]

/-- The keys of `mapPush m k v`: unchanged if `k` was present, else `k`
is appended. -/
theorem keys_mapPush {K V : Type} [DecidableEq K] (m : List (K × List V)) (k : K) (v : V) :
    (mapPush m k v).map (fun e => e.1) =
      if k ∈ m.map (fun e => e.1) then m.map (fun e => e.1)
      else m.map (fun e => e.1) ++ [k] := by
  induction m with
  | nil => simp [mapPush]
  | cons e rest ih =>
    obtain ⟨k2, vs⟩ := e
    by_cases h : k2 = k
    · subst h; simp [mapPush]
    · have hne : ¬ k = k2 := fun hh => h hh.symm
      simp only [mapPush, if_neg h, List.map_cons, List.mem_cons, ih]
      by_cases hm : k ∈ rest.map (fun e => e.1)
      · simp [hm, hne]
      · simp [hm, hne]

theorem keys_nodup_mapPush {K V : Type} [DecidableEq K]
    (m : List (K × List V)) (k : K) (v : V)
    (h : (m.map (fun e => e.1)).Nodup) :
    ((mapPush m k v).map (fun e => e.1)).Nodup := by
  rw [keys_mapPush]
  by_cases hm : k ∈ m.map (fun e => e.1)
  · simpa [hm] using h
  · rw [if_neg hm]
    refine List.Nodup.append h (by simp) ?_
    intro a ha hb
    simp only [List.mem_singleton] at hb
    subst hb
    exact hm ha

theorem keys_nodup_foldl_mapPush {K V : Type} [DecidableEq K]
    (key : V → K) (l : List V) (m0 : List (K × List V))
    (h0 : (m0.map (fun e => e.1)).Nodup) :
    ((l.foldl (fun m s => mapPush m (key s) s) m0).map (fun e => e.1)).Nodup := by
  induction l generalizing m0 with
  | nil => simpa using h0
  | cons s rest ih =>
    simpa using ih (mapPush m0 (key s) s) (keys_nodup_mapPush _ _ _ h0)

theorem keys_nodup_faceMapOf (tets : List Tet) :
    ((faceMapOf tets).map (fun e => e.1)).Nodup :=
  keys_nodup_foldl_mapPush _ _ [] (by simp)

/-- With pairwise distinct keys, membership determines the group. -/
theorem mem_grpLookup {K V : Type} [DecidableEq K]
    (m : List (K × List V)) (k : K) (g : List V)
    (hnd : (m.map (fun e => e.1)).Nodup) (hmem : (k, g) ∈ m) :
    grpLookup m k = g := by
  induction m with
  | nil => simp at hmem
  | cons e rest ih =>
    obtain ⟨k2, vs⟩ := e
    simp only [List.map_cons, List.nodup_cons] at hnd
    rcases List.mem_cons.mp hmem with h | h
    · obtain ⟨h1, h2⟩ := Prod.mk.injEq .. ▸ h
      simp [grpLookup, h1.symm, h2]
    · have hk2 : k2 ≠ k := by
        intro hh
        exact hnd.1 (by simpa [hh] using List.mem_map_of_mem (fun e => e.1) h)
      simp [grpLookup, hk2, ih hnd.2 h]

theorem grpLookup_mem {K V : Type} [DecidableEq K]
    (m : List (K × List V)) (k : K) (h : grpLookup m k ≠ []) :
    (k, grpLookup m k) ∈ m := by
  induction m with
  | nil => simp [grpLookup] at h
  | cons e rest ih =>
    obtain ⟨k2, vs⟩ := e
    by_cases hk : k2 = k
    · subst hk
      simp [grpLookup]
    · simp only [grpLookup, if_neg hk] at h
      simp [grpLookup, hk, ih h]

/-- The slots a group can write to in the second loop. -/
def wtargets (g : List (ℕ × ℕ)) : List (ℕ × ℕ) :=
  match g with
  | [s1, s2] => [s1, s2]
  | _ => []

theorem wtargets_subset (g : List (ℕ × ℕ)) : wtargets g ⊆ g := by
  match g with
  | [] => simp [wtargets]
  | [s1] => simp [wtargets]
  | [s1, s2] => simp [wtargets]
  | s1 :: s2 :: s3 :: rest => simp [wtargets]

theorem writePairs_not_target (p : ℕ × ℕ → Option Mirror) (g : List (ℕ × ℕ))
    (s : ℕ × ℕ) (h : s ∉ wtargets g) : writePairs p g s = p s := by
  match g with
  | [] => rfl
  | [s1] => rfl
  | [s1, s2] =>
    simp only [wtargets, List.mem_cons, List.mem_singleton, not_or] at h
    simp [writePairs, h.1, h.2]
  | s1 :: s2 :: s3 :: rest => rfl

theorem foldl_writePairs_char (g0 : List (ℕ × ℕ)) (mval : Option Mirror) (s : ℕ × ℕ)
    (hval : ∀ p, s ∈ wtargets g0 → writePairs p g0 s = mval)
    (gs : List (List (ℕ × ℕ))) (p : ℕ × ℕ → Option Mirror)
    (hA : ∀ g ∈ gs, s ∈ wtargets g → g = g0) :
    gs.foldl writePairs p s = if ∃ g ∈ gs, s ∈ wtargets g then mval else p s := by
  induction gs generalizing p with
  | nil => simp
  | cons g rest ih =>
    rw [List.foldl_cons]
    by_cases ht : s ∈ wtargets g
    · have hg : g = g0 := hA g (List.mem_cons_self _ _) ht
      subst hg
      rw [ih (writePairs p g) (fun g2 h2 => hA g2 (List.mem_cons_of_mem _ h2))]
      have hmv := hval p ht
      by_cases hr : ∃ g2 ∈ rest, s ∈ wtargets g2
      · simp [hr, ht]
      · simp [hr, ht, hmv]
    · rw [ih (writePairs p g) (fun g2 h2 => hA g2 (List.mem_cons_of_mem _ h2)),
        writePairs_not_target p g s ht]
      by_cases hr : ∃ g2 ∈ rest, s ∈ wtargets g2
      · simp [hr]
      · have : ¬ ∃ g2 ∈ g :: rest, s ∈ wtargets g2 := by
          intro ⟨g2, hg2, hs2⟩
          rcases List.mem_cons.mp hg2 with h | h
          · exact ht (h ▸ hs2)
          · exact hr ⟨g2, h, hs2⟩
        simp [hr, this, ht]

theorem mem_keyGroup_key (tets : List Tet) (k : List ℕ) (s : ℕ × ℕ)
    (h : s ∈ keyGroup tets k) : slotKey tets s = k := by
  unfold keyGroup at h
  simpa using (List.mem_filter.mp h).2

theorem faceMapOf_groups (tets : List Tet) (g : List (ℕ × ℕ))
    (hg : g ∈ (faceMapOf tets).map (fun e => e.2)) :
    ∃ k, g = keyGroup tets k := by
  obtain ⟨⟨k, g2⟩, hmem, he⟩ := List.mem_map.mp hg
  simp only at he
  subst he
  refine ⟨k, ?_⟩
  rw [← grpLookup_faceMapOf]
  exact (mem_grpLookup _ _ _ (keys_nodup_faceMapOf tets) hmem).symm

theorem buildFacetPairs_hA (tets : List Tet) (s : ℕ × ℕ) :
    ∀ g ∈ (faceMapOf tets).map (fun e => e.2), s ∈ wtargets g →
      g = keyGroup tets (slotKey tets s) := by
  intro g hg hs
  obtain ⟨k, hk⟩ := faceMapOf_groups tets g hg
  subst hk
  rw [mem_keyGroup_key tets k s (wtargets_subset _ hs)]

/-- If the group of `s`'s face key is exactly a pair, the table holds the
corresponding mirror entries. -/
theorem buildFacetPairs_pair (tets : List Tet) (s s1 s2 : ℕ × ℕ)
    (h : keyGroup tets (slotKey tets s) = [s1, s2]) :
    buildFacetPairs tets s =
      if s = s2 then some ⟨s1.2, s1.1⟩
      else if s = s1 then some ⟨s2.2, s2.1⟩
      else none := by
  unfold buildFacetPairs
  by_cases ht : s ∈ wtargets (keyGroup tets (slotKey tets s))
  · have hval : ∀ p, s ∈ wtargets (keyGroup tets (slotKey tets s)) →
        writePairs p (keyGroup tets (slotKey tets s)) s =
          (if s = s2 then some ⟨s1.2, s1.1⟩ else some ⟨s2.2, s2.1⟩) := by
      intro p hs
      rw [h] at hs ⊢
      simp only [wtargets, List.mem_cons, List.mem_singleton] at hs
      by_cases h2 : s = s2
      · simp [writePairs, h2]
      · have h1 : s = s1 := by tauto
        simp [writePairs, h1, h2]
    rw [foldl_writePairs_char _ _ s hval _ _ (buildFacetPairs_hA tets s)]
    have hex : ∃ g ∈ (faceMapOf tets).map (fun e => e.2), s ∈ wtargets g := by
      refine ⟨keyGroup tets (slotKey tets s), ?_, ht⟩
      have hne : grpLookup (faceMapOf tets) (slotKey tets s) ≠ [] := by
        rw [grpLookup_faceMapOf, h]; simp
      have := grpLookup_mem _ _ hne
      rw [grpLookup_faceMapOf] at this
      exact List.mem_map.mpr ⟨_, this, rfl⟩
    rw [if_pos hex]
    rw [h] at ht
    simp only [wtargets, List.mem_cons, List.mem_singleton] at ht
    by_cases h2 : s = s2
    · simp [h2]
    · have h1 : s = s1 := by tauto
      simp [h1, h2]
  · have hval : ∀ p, s ∈ wtargets (keyGroup tets (slotKey tets s)) →
        writePairs p (keyGroup tets (slotKey tets s)) s = none :=
      fun p hs => absurd hs ht
    rw [foldl_writePairs_char _ none s hval _ _ (buildFacetPairs_hA tets s)]
    have hnex : ¬ ∃ g ∈ (faceMapOf tets).map (fun e => e.2), s ∈ wtargets g := by
      intro ⟨g, hg, hs⟩
      exact ht ((buildFacetPairs_hA tets s g hg hs) ▸ hs)
    rw [if_neg hnex]
    rw [h] at ht
    simp only [wtargets, List.mem_cons, List.mem_singleton, not_or] at ht
    simp [ht.1, ht.2]

/-- If the group of `s`'s face key does not have exactly two members, the
table entry at `s` is `none` (the face is silently left unpaired). -/
theorem buildFacetPairs_nonpair (tets : List Tet) (s : ℕ × ℕ)
    (h : (keyGroup tets (slotKey tets s)).length ≠ 2) :
    buildFacetPairs tets s = none := by
  unfold buildFacetPairs
  have ht : s ∉ wtargets (keyGroup tets (slotKey tets s)) := by
    intro hs
    rcases hg : keyGroup tets (slotKey tets s) with _ | ⟨a, _ | ⟨b, _ | ⟨c, r⟩⟩⟩ <;>
      rw [hg] at hs <;> simp [wtargets] at hs
    exact h (by rw [hg]; rfl)
  have hval : ∀ p, s ∈ wtargets (keyGroup tets (slotKey tets s)) →
      writePairs p (keyGroup tets (slotKey tets s)) s = none :=
    fun p hs => absurd hs ht
  rw [foldl_writePairs_char _ none s hval _ _ (buildFacetPairs_hA tets s)]
  have hnex : ¬ ∃ g ∈ (faceMapOf tets).map (fun e => e.2), s ∈ wtargets g := by
    intro ⟨g, hg, hs⟩
    exact ht ((buildFacetPairs_hA tets s g hg hs) ▸ hs)
  simp [hnex]

theorem allSlots_nodup (tets : List Tet) : (allSlots tets).Nodup := by
  unfold allSlots
  refine List.nodup_flatMap.mpr ⟨?_, ?_⟩
  · intro ti _
    have h4 : (List.range 4).Nodup := List.nodup_range 4
    exact List.Nodup.map (fun a b h => by simpa using h) h4
  · have hr : (List.range tets.length).Nodup := List.nodup_range tets.length
    refine hr.imp ?_
    intro a b hab
    intro x hxa hxb
    simp only [List.mem_map, List.mem_range] at hxa hxb
    obtain ⟨fa, _, hfa⟩ := hxa
    obtain ⟨fb, _, hfb⟩ := hxb
    apply hab
    rw [← hfa] at hfb
    exact ((Prod.mk.injEq _ _ _ _).mp hfb).1.symm

theorem keyGroup_nodup (tets : List Tet) (k : List ℕ) : (keyGroup tets k).Nodup :=
  (allSlots_nodup tets).filter _

theorem mem_keyGroup_self (tets : List Tet) (s : ℕ × ℕ) :
    s ∈ keyGroup tets (slotKey tets s) ↔ s ∈ allSlots tets := by
  unfold keyGroup
  constructor
  · intro h; exact (List.mem_filter.mp h).1
  · intro h; exact List.mem_filter.mpr ⟨h, by simp⟩

theorem keyGroup_sub_allSlots (tets : List Tet) (k : List ℕ) :
    keyGroup tets k ⊆ allSlots tets :=
  fun _ hs => (List.mem_filter.mp hs).1

/-- Facet pairing is a symmetric partial pairing: mirror entries always come
in matched pairs. -/
theorem buildFacetPairs_symm (tets : List Tet) (s : ℕ × ℕ) (m : Mirror)
    (h : buildFacetPairs tets s = some m) :
    buildFacetPairs tets (m.tet, m.face) = some ⟨s.2, s.1⟩ := by
  by_cases hl : (keyGroup tets (slotKey tets s)).length = 2
  · obtain ⟨s1, s2, hg⟩ := List.length_eq_two.mp hl
    have hpair := buildFacetPairs_pair tets s s1 s2 hg
    have hs1k : slotKey tets s1 = slotKey tets s :=
      mem_keyGroup_key tets _ s1 (by rw [hg]; simp)
    have hs2k : slotKey tets s2 = slotKey tets s :=
      mem_keyGroup_key tets _ s2 (by rw [hg]; simp)
    have hne : s1 ≠ s2 := by
      have := keyGroup_nodup tets (slotKey tets s)
      rw [hg] at this
      simp at this
      exact this
    by_cases h2 : s = s2
    · rw [hpair, if_pos h2] at h
      have hm : m = ⟨s1.2, s1.1⟩ := (Option.some_inj.mp h).symm
      subst hm
      have hg1 : keyGroup tets (slotKey tets (s1.1, s1.2)) = [s1, s2] := by
        rw [show (s1.1, s1.2) = s1 from rfl, hs1k, hg]
      have := buildFacetPairs_pair tets (s1.1, s1.2) s1 s2 hg1
      rw [show ((Mirror.mk s1.2 s1.1).tet, (Mirror.mk s1.2 s1.1).face) = (s1.1, s1.2) from rfl]
      rw [this]
      have : (s1.1, s1.2) ≠ s2 := by
        intro hh; exact hne (by rw [← hh])
      simp [this, h2]
    · rw [hpair, if_neg h2] at h
      by_cases h1 : s = s1
      · rw [if_pos h1] at h
        have hm : m = ⟨s2.2, s2.1⟩ := (Option.some_inj.mp h).symm
        subst hm
        have hg2 : keyGroup tets (slotKey tets (s2.1, s2.2)) = [s1, s2] := by
          rw [show (s2.1, s2.2) = s2 from rfl, hs2k, hg]
        have := buildFacetPairs_pair tets (s2.1, s2.2) s1 s2 hg2
        rw [show ((Mirror.mk s2.2 s2.1).tet, (Mirror.mk s2.2 s2.1).face) = (s2.1, s2.2) from rfl]
        rw [this]
        simp [h1]
      · rw [if_neg h1] at h
        exact absurd h (by simp)
  · rw [buildFacetPairs_nonpair tets s hl] at h
    exact absurd h (by simp)

/-- A table entry is non-null exactly when the slot is a real facet slot and
its face key occurs exactly twice among all faces. -/
theorem buildFacetPairs_isSome_iff (tets : List Tet) (s : ℕ × ℕ) :
    (buildFacetPairs tets s).isSome = true ↔
      s ∈ allSlots tets ∧ faceKeyCount tets (slotKey tets s) = 2 := by
  constructor
  · intro h
    by_cases hl : (keyGroup tets (slotKey tets s)).length = 2
    · obtain ⟨s1, s2, hg⟩ := List.length_eq_two.mp hl
      have hpair := buildFacetPairs_pair tets s s1 s2 hg
      refine ⟨?_, hl⟩
      by_cases h2 : s = s2
      · subst h2
        exact keyGroup_sub_allSlots tets _ (by rw [hg]; simp)
      · by_cases h1 : s = s1
        · subst h1
          exact keyGroup_sub_allSlots tets _ (by rw [hg]; simp)
        · rw [hpair, if_neg h2, if_neg h1] at h
          simp at h
    · rw [buildFacetPairs_nonpair tets s hl] at h
      simp at h
  · intro ⟨hmem, hcount⟩
    obtain ⟨s1, s2, hg⟩ := List.length_eq_two.mp hcount
    have hpair := buildFacetPairs_pair tets s s1 s2 hg
    have hself : s ∈ keyGroup tets (slotKey tets s) := (mem_keyGroup_self tets s).mpr hmem
    rw [hg] at hself
    simp only [List.mem_cons, List.not_mem_nil, or_false] at hself
    rcases hself with h1 | h2
    · by_cases h2 : s = s2
      · rw [hpair, if_pos h2]; simp
      · rw [hpair, if_neg h2, if_pos h1]; simp
    · rw [hpair, if_pos h2]; simp

/-- Claim C10.  The face-adjacency table returned by `buildFacetPairs` is a
symmetric partial pairing: whenever `pairs[t1][f1]` is non-null and equals
`{tet: t2, face: f2}` then `pairs[t2][f2]` is non-null and equals
`{tet: t1, face: f1}`; and entries are non-null exactly for facet slots of
the input whose sorted vertex-triple face key occurs exactly twice among the
tetrahedra's faces. -/
theorem facetPairs_symmetric_partial_pairing (tets : List Tet) :
    (∀ t1 f1 t2 f2, buildFacetPairs tets (t1, f1) = some ⟨f2, t2⟩ →
       buildFacetPairs tets (t2, f2) = some ⟨f1, t1⟩) ∧
    (∀ s ∈ allSlots tets,
       (buildFacetPairs tets s).isSome = true ↔
         faceKeyCount tets (slotKey tets s) = 2) := by
  constructor
  · intro t1 f1 t2 f2 h
    exact buildFacetPairs_symm tets (t1, f1) ⟨f2, t2⟩ h
  · intro s hs
    rw [buildFacetPairs_isSome_iff]
    exact ⟨fun h => h.2, fun h => ⟨hs, h⟩⟩

/-- Witness for C10 on a concrete two-tetrahedron input sharing face
`[0,1,2]`. -/
theorem facetPairs_symmetric_partial_pairing_witness :
    buildFacetPairs [⟨0, 1, 2, 3⟩, ⟨0, 1, 2, 4⟩] (0, 0) = some ⟨0, 1⟩ ∧
    buildFacetPairs [⟨0, 1, 2, 3⟩, ⟨0, 1, 2, 4⟩] (1, 0) = some ⟨0, 0⟩ :=
  ⟨by decide,
   (facetPairs_symmetric_partial_pairing [⟨0, 1, 2, 3⟩, ⟨0, 1, 2, 4⟩]).1
     0 0 1 0 (by decide)⟩

/-! ## Claim C4: behaviour on face keys observed more than twice -/

/-- Claim C4, amended.  `buildFacetPairs` does not abort on a face key
observed more (or fewer) than two times: every slot of such a key is
silently left unpaired (`none`) and the computation completes normally. -/
theorem facetPairs_overfull_key_silently_unpaired (tets : List Tet) (s : ℕ × ℕ)
    (h : faceKeyCount tets (slotKey tets s) ≠ 2) :
    buildFacetPairs tets s = none :=
  buildFacetPairs_nonpair tets s h

/-- Witness for the amended C4: face `[0,1,2]` occurs three times in this
input, and the slot `(0,0)` carrying it is left unpaired. -/
theorem facetPairs_overfull_key_silently_unpaired_witness :
    faceKeyCount [⟨0, 1, 2, 3⟩, ⟨0, 1, 2, 4⟩, ⟨0, 1, 2, 5⟩]
        (slotKey [⟨0, 1, 2, 3⟩, ⟨0, 1, 2, 4⟩, ⟨0, 1, 2, 5⟩] (0, 0)) ≠ 2 ∧
    buildFacetPairs [⟨0, 1, 2, 3⟩, ⟨0, 1, 2, 4⟩, ⟨0, 1, 2, 5⟩] (0, 0) = none :=
  ⟨by decide,
   facetPairs_overfull_key_silently_unpaired
     [⟨0, 1, 2, 3⟩, ⟨0, 1, 2, 4⟩, ⟨0, 1, 2, 5⟩] (0, 0) (by decide)⟩

/-- Counterexample to C4 as stated: on an input whose face key `[0,1,2]` is
observed three times, `buildFacetPairs` neither surfaces a diagnostic nor
aborts — it evaluates to a perfectly ordinary table in which every facet
slot is simply unpaired, i.e. the violation is tolerated silently. -/
theorem facetPairs_no_abort_on_triple_face :
    faceKeyCount [⟨0, 1, 2, 3⟩, ⟨0, 1, 2, 4⟩, ⟨0, 1, 2, 5⟩] [0, 1, 2] = 3 ∧
    ∀ s ∈ allSlots [⟨0, 1, 2, 3⟩, ⟨0, 1, 2, 4⟩, ⟨0, 1, 2, 5⟩],
      buildFacetPairs [⟨0, 1, 2, 3⟩, ⟨0, 1, 2, 4⟩, ⟨0, 1, 2, 5⟩] s = none := by
  constructor
  · decide
  · decide

/-! ## `buildFoam` dual-edge maps (core.js lines 268-309)

Only the dual-edge bookkeeping of `buildFoam` is modelled here (the
`centers` and `linkGraph` fields do not enter these maps). -/

/-- The decimal digits of a natural number, least significant first; the
first argument is recursion fuel (`n` itself suffices since `n / 10 < n`). -/
def decDigitsAux : ℕ → ℕ → List ℕ
  | 0, n => [n]
  | fuel + 1, n => if n < 10 then [n] else n % 10 :: decDigitsAux fuel (n / 10)

/-- The decimal digits of a natural number, most significant first; this is
the character sequence of its decimal string. -/
def decDigits (n : ℕ) : List ℕ := (decDigitsAux n n).reverse

/-- Strict lexicographic order on digit sequences: exactly the UTF-16
code-unit order JS uses to compare the decimal strings. -/
def lexLt : List ℕ → List ℕ → Bool
  | [], [] => false
  | [], _ :: _ => true
  | _ :: _, [] => false
  | a :: as, b :: bs => if a < b then true else if b < a then false else lexLt as bs

/-- JS default-sort comparison on naturals: lexicographic order of their
decimal string representations (the comparator-less `Array.prototype.sort`). -/
def jsStrLe (a b : ℕ) : Prop := lexLt (decDigits b) (decDigits a) = false

instance jsStrLe.decRel : DecidableRel jsStrLe := fun a b =>
  instDecidableEqBool (lexLt (decDigits b) (decDigits a)) false

/-- `faceVertices.slice().sort()` in `buildFoam`: the JS default sort
(by decimal string order), stable. -/
def jsSortStr (l : List ℕ) : List ℕ := l.insertionSort jsStrLe

/-- `Map.set` with JS semantics: overwrite in place if the key exists,
else append at the end. -/
def jsMapSet {K V : Type} [DecidableEq K] (m : List (K × V)) (k : K) (v : V) :
    List (K × V) :=
  match m with
  | [] => [(k, v)]
  | (k2, v2) :: rest => if k2 = k then (k2, v) :: rest else (k2, v2) :: jsMapSet rest k v

/-- `Map.get`. -/
def jsMapGet {K V : Type} [DecidableEq K] (m : List (K × V)) (k : K) : Option V :=
  match m with
  | [] => none
  | (k2, v) :: rest => if k2 = k then some v else jsMapGet rest k

/-- The vertex quadruple of a tetrahedron as a list. -/
def Tet.toList (t : Tet) : List ℕ := [t.v0, t.v1, t.v2, t.v3]

/-- The dual-edge bookkeeping of a Foam: the emitted dual edges in order,
the `voronoiEdgeToDelaunayFace` map, and the `delaunayFaceToVoronoiEdge`
map.  Edge keys `"a-b"` are modelled as ordered pairs `(a, b)` with `a < b`;
face keys as string-sorted vertex lists (the decimal joins are injective, so
key equality agrees). -/
structure FoamMaps where
  voronoiEdges : List (ℕ × ℕ)
  veToDf : List ((ℕ × ℕ) × List ℕ)
  dfToVe : List (List ℕ × (ℕ × ℕ))
deriving DecidableEq, Repr

/-- One facet-slot step of the dual-edge loop in `buildFoam`: if the facet
has a mirror and the current tetrahedron index is the smaller one, emit the
dual edge `(t1, t2)`, record the face obtained by dropping local position
`f1` from the tetrahedron's vertex quadruple
(`tet1.filter((_, i) => i !== f1_idx)`), and record the reverse mapping
under the string-sorted face key.  Faithful to the source: the dropped
position is `f1` itself, although `buildFacetPairs` pairs the face that
omits position `3 - f1`. -/
def buildFoamStep (tets : List Tet) (st : FoamMaps) (s : ℕ × ℕ) : FoamMaps :=
  match buildFacetPairs tets s with
  | none => st
  | some m =>
    if s.1 < m.tet then
      { voronoiEdges := st.voronoiEdges ++ [(s.1, m.tet)],
        veToDf := jsMapSet st.veToDf (s.1, m.tet)
          (((tets.getD s.1 ⟨0, 0, 0, 0⟩).toList).eraseIdx s.2),
        dfToVe := jsMapSet st.dfToVe
          (jsSortStr (((tets.getD s.1 ⟨0, 0, 0, 0⟩).toList).eraseIdx s.2))
          (s.1, m.tet) }
    else st

/-- The dual-edge part of `buildFoam`: fold the step over all facet slots in
traversal order. -/
def buildFoamMaps (tets : List Tet) : FoamMaps :=
  (allSlots tets).foldl (buildFoamStep tets) ⟨[], [], []⟩

/-- Claim C2 (code bug evidence).  On the face-manifold fan
`[[0,1,2,3],[0,1,2,4],[1,2,3,4]]` (every face key occurs at most twice, each
pair of tetrahedra shares exactly one face), the dual edge set is emitted
exactly once per edge, but `voronoiEdgeToDelaunayFace` and
`delaunayFaceToVoronoiEdge` are NOT inverse: the roundtrip of edge `(0,2)`
returns `(1,2)`.  The cause is the face-index convention slip described at
`buildFoamStep`. -/
theorem foam_edge_face_roundtrip_breaks :
    (buildFoamMaps [⟨0, 1, 2, 3⟩, ⟨0, 1, 2, 4⟩, ⟨1, 2, 3, 4⟩]).voronoiEdges
        = [(0, 1), (0, 2), (1, 2)] ∧
    jsMapGet (buildFoamMaps [⟨0, 1, 2, 3⟩, ⟨0, 1, 2, 4⟩, ⟨1, 2, 3, 4⟩]).veToDf (0, 2)
        = some [0, 1, 2] ∧
    jsMapGet (buildFoamMaps [⟨0, 1, 2, 3⟩, ⟨0, 1, 2, 4⟩, ⟨1, 2, 3, 4⟩]).dfToVe
        (jsSortStr [0, 1, 2]) = some (1, 2) ∧
    ((1, 2) : ℕ × ℕ) ≠ (0, 2) := by
  refine ⟨?_, ?_, ?_, by decide⟩ <;> decide

/-! ## `edgePageRank` (edgeGraph.js lines 146-214) -/

/-- An edge graph as consumed by `edgePageRank`: the node keys (dual-edge
keys) in order, and the links as `(source, target)` node-index pairs.  The
remaining node fields and the link `angle` are never read by `edgePageRank`. -/
structure EdgeGraph where
  nodes : List (ℕ × ℕ)
  links : List (ℕ × ℕ)

/-- `f[a].push(b)` on an array-of-lists modelled as a function. -/
def pushAt (f : ℕ → List ℕ) (a b : ℕ) : ℕ → List ℕ :=
  fun x => if x = a then f a ++ [b] else f x

/-- The `outgoing` adjacency lists: every link contributes both directions
(`incoming` is built identically and never read afterwards). -/
def prOutgoing (links : List (ℕ × ℕ)) : ℕ → List ℕ :=
  links.foldl (fun f l => pushAt (pushAt f l.1 l.2) l.2 l.1) (fun _ => [])

/-- `ns[j] += c` on the `newScores` array modelled as a function. -/
def addAt (ns : ℕ → ℚ) (j : ℕ) (c : ℚ) : ℕ → ℚ :=
  fun x => if x = j then ns j + c else ns x

/-- One score-distribution pass of `edgePageRank`: each node distributes its
score equally to its neighbours; a node with no outgoing links distributes
equally to every node. -/
def prDistribute (numNodes : ℕ) (outgoing : ℕ → List ℕ) (scores : ℕ → ℚ) : ℕ → ℚ :=
  (List.range numNodes).foldl
    (fun ns i =>
      if outgoing i ≠ [] then
        (outgoing i).foldl (fun ns2 j => addAt ns2 j (scores i / (outgoing i).length)) ns
      else
        (List.range numNodes).foldl (fun ns2 j => addAt ns2 j (scores i / numNodes)) ns)
    (fun _ => 0)

/-- One full PageRank iteration including damping.  Only indices below
`numNodes` are ever read back. -/
def prIter (numNodes : ℕ) (damping : ℚ) (outgoing : ℕ → List ℕ) (scores : ℕ → ℚ) :
    ℕ → ℚ :=
  fun i => (1 - damping) / numNodes + damping * prDistribute numNodes outgoing scores i

/-- The raw scores after the fixed number of iterations (initial score 1
for every node). -/
def prScores (numNodes : ℕ) (links : List (ℕ × ℕ)) (iterations : ℕ) (damping : ℚ) :
    ℕ → ℚ :=
  (List.range iterations).foldl
    (fun sc _ => prIter numNodes damping (prOutgoing links) sc) (fun _ => 1)

/-- `Math.max(...l)` for a nonempty list (`0` as junk value for `[]`,
which the guarded caller never produces). -/
def jsMaxList : List ℚ → ℚ
  | [] => 0
  | x :: xs => xs.foldl max x

/-- `Math.min(...l)`, same conventions. -/
def jsMinList : List ℚ → ℚ
  | [] => 0
  | x :: xs => xs.foldl min x

/-- The list of raw scores `scores[0..numNodes)` after the iterations. -/
def prRawVals (g : EdgeGraph) (iterations : ℕ) (damping : ℚ) : List ℚ :=
  (List.range g.nodes.length).map (prScores g.nodes.length g.links iterations damping)

/-- The min-max normalized score of node `i`:
`(scores[i] - minScore) / ((maxScore - minScore) || 1)`. -/
def prNorm (g : EdgeGraph) (iterations : ℕ) (damping : ℚ) (i : ℕ) : ℚ :=
  (prScores g.nodes.length g.links iterations damping i
      - jsMinList (prRawVals g iterations damping)) /
    (if jsMaxList (prRawVals g iterations damping)
          - jsMinList (prRawVals g iterations damping) = 0 then 1
     else jsMaxList (prRawVals g iterations damping)
          - jsMinList (prRawVals g iterations damping))

/-- `edgePageRank` (edgeGraph.js): run the iterations, then min-max
normalize into a map keyed by node key (`range || 1` guards the all-equal
case).  The variance console diagnostic of the source has no effect on the
result and is not modelled. -/
def edgePageRank (g : EdgeGraph) (iterations : ℕ) (damping : ℚ) :
    List ((ℕ × ℕ) × ℚ) :=
  if g.nodes.length = 0 then [] else
  g.nodes.enum.foldl (fun m e => jsMapSet m e.2 (prNorm g iterations damping e.1)) []

/-! ### Facts about `jsMaxList` / `jsMinList` and the score map -/

theorem foldl_max_mem (x : ℚ) (xs : List ℚ) : xs.foldl max x ∈ x :: xs := by
  induction xs generalizing x with
  | nil => simp
  | cons y ys ih =>
    rw [List.foldl_cons]
    rcases List.mem_cons.mp (ih (max x y)) with h | h
    · rw [h]
      rcases max_choice x y with hm | hm <;> rw [hm] <;> simp
    · exact List.mem_cons_of_mem _ (List.mem_cons_of_mem _ h)

theorem le_foldl_max (x : ℚ) (xs : List ℚ) : ∀ a ∈ x :: xs, a ≤ xs.foldl max x := by
  induction xs generalizing x with
  | nil => simp
  | cons y ys ih =>
    intro a ha
    rw [List.foldl_cons]
    rcases List.mem_cons.mp ha with h | h
    · subst h
      exact le_trans (le_max_left a y) (ih (max a y) _ (List.mem_cons_self _ _))
    · rcases List.mem_cons.mp h with h2 | h2
      · subst h2
        exact le_trans (le_max_right x a) (ih (max x a) _ (List.mem_cons_self _ _))
      · exact ih (max x y) a (List.mem_cons_of_mem _ h2)

theorem foldl_min_mem (x : ℚ) (xs : List ℚ) : xs.foldl min x ∈ x :: xs := by
  induction xs generalizing x with
  | nil => simp
  | cons y ys ih =>
    rw [List.foldl_cons]
    rcases List.mem_cons.mp (ih (min x y)) with h | h
    · rw [h]
      rcases min_choice x y with hm | hm <;> rw [hm] <;> simp
    · exact List.mem_cons_of_mem _ (List.mem_cons_of_mem _ h)

theorem foldl_min_le (x : ℚ) (xs : List ℚ) : ∀ a ∈ x :: xs, xs.foldl min x ≤ a := by
  induction xs generalizing x with
  | nil => simp
  | cons y ys ih =>
    intro a ha
    rw [List.foldl_cons]
    rcases List.mem_cons.mp ha with h | h
    · subst h
      exact le_trans (ih (min a y) _ (List.mem_cons_self _ _)) (min_le_left a y)
    · rcases List.mem_cons.mp h with h2 | h2
      · subst h2
        exact le_trans (ih (min x a) _ (List.mem_cons_self _ _)) (min_le_right x a)
      · exact ih (min x y) a (List.mem_cons_of_mem _ h2)

theorem jsMaxList_mem (l : List ℚ) (h : l ≠ []) : jsMaxList l ∈ l := by
  cases l with
  | nil => exact absurd rfl h
  | cons x xs => exact foldl_max_mem x xs

theorem le_jsMaxList (l : List ℚ) (a : ℚ) (ha : a ∈ l) : a ≤ jsMaxList l := by
  cases l with
  | nil => simp at ha
  | cons x xs => exact le_foldl_max x xs a ha

theorem jsMinList_mem (l : List ℚ) (h : l ≠ []) : jsMinList l ∈ l := by
  cases l with
  | nil => exact absurd rfl h
  | cons x xs => exact foldl_min_mem x xs

theorem jsMinList_le (l : List ℚ) (a : ℚ) (ha : a ∈ l) : jsMinList l ≤ a := by
  cases l with
  | nil => simp at ha
  | cons x xs => exact foldl_min_le x xs a ha

theorem jsMapSet_fresh {K V : Type} [DecidableEq K] (m : List (K × V)) (k : K) (v : V)
    (h : k ∉ m.map (fun e => e.1)) : jsMapSet m k v = m ++ [(k, v)] := by
  induction m with
  | nil => rfl
  | cons e rest ih =>
    obtain ⟨k2, v2⟩ := e
    simp only [List.map_cons, List.mem_cons, not_or] at h
    have : k2 ≠ k := fun hh => h.1 hh.symm
    simp [jsMapSet, this, ih h.2]

theorem foldl_jsMapSet_fresh {K V : Type} [DecidableEq K]
    (entries : List (K × V)) (m0 : List (K × V))
    (hfresh : ∀ e ∈ entries, e.1 ∉ m0.map (fun x => x.1))
    (hnd : (entries.map (fun x => x.1)).Nodup) :
    entries.foldl (fun m e => jsMapSet m e.1 e.2) m0 = m0 ++ entries := by
  induction entries generalizing m0 with
  | nil => simp
  | cons e rest ih =>
    rw [List.foldl_cons,
      jsMapSet_fresh m0 e.1 e.2 (hfresh e (List.mem_cons_self _ _))]
    simp only [List.map_cons, List.nodup_cons] at hnd
    rw [ih (m0 ++ [(e.1, e.2)]) ?_ hnd.2]
    · simp
    · intro e2 he2
      simp only [List.map_append, List.mem_append, not_or]
      refine ⟨hfresh e2 (List.mem_cons_of_mem _ he2), ?_⟩
      simp only [List.map_cons, List.map_nil, List.mem_singleton]
      intro hh
      exact hnd.1 (hh ▸ List.mem_map_of_mem (fun x => x.1) he2)

theorem edgePageRank_eq_map (g : EdgeGraph) (it : ℕ) (d : ℚ)
    (hkeys : g.nodes.Nodup) :
    edgePageRank g it d = g.nodes.enum.map (fun e => (e.2, prNorm g it d e.1)) := by
  unfold edgePageRank
  by_cases h0 : g.nodes.length = 0
  · rw [if_pos h0]
    rw [List.length_eq_zero] at h0
    rw [h0]
    rfl
  · rw [if_neg h0]
    have hfold :
        g.nodes.enum.foldl (fun m e => jsMapSet m e.2 (prNorm g it d e.1)) [] =
          (g.nodes.enum.map (fun e => (e.2, prNorm g it d e.1))).foldl
            (fun m e => jsMapSet m e.1 e.2) [] := by
      rw [List.foldl_map]
    rw [hfold, foldl_jsMapSet_fresh _ [] (by simp) ?_]
    · simp
    · have : (g.nodes.enum.map (fun e => (e.2, prNorm g it d e.1))).map
          (fun x => x.1) = g.nodes := by
        rw [List.map_map]
        have : ((fun x : (ℕ × ℕ) × ℚ => x.1) ∘ fun e : ℕ × (ℕ × ℕ) =>
            (e.2, prNorm g it d e.1)) = Prod.snd := rfl
        rw [this, List.enum_map_snd]
      rw [this]
      exact hkeys

theorem edgePageRank_values (g : EdgeGraph) (it : ℕ) (d : ℚ)
    (hkeys : g.nodes.Nodup) :
    (edgePageRank g it d).map (fun e => e.2) =
      (List.range g.nodes.length).map (prNorm g it d) := by
  rw [edgePageRank_eq_map g it d hkeys, List.map_map]
  have h1 : ((fun e : (ℕ × ℕ) × ℚ => e.2) ∘ fun e : ℕ × (ℕ × ℕ) =>
      (e.2, prNorm g it d e.1)) = (prNorm g it d) ∘ Prod.fst := rfl
  rw [h1, ← List.map_map, List.enum_map_fst]

/-- Claim C5, amended.  For every non-empty edge graph whose node keys are
pairwise distinct, `edgePageRank` min-max normalizes the final scores into
`[0,1]`: every output value lies in `[0,1]`, and if all raw scores are
equal every output value is `0`, otherwise the output map attains both `0`
and `1` — so the output attains minimum `0` and maximum `1`. -/
theorem pageRank_minmax_normalization (g : EdgeGraph) (it : ℕ) (d : ℚ)
    (hne : g.nodes ≠ [])
    (hkeys : g.nodes.Nodup) :
    (∀ v ∈ (edgePageRank g it d).map (fun e => e.2), 0 ≤ v ∧ v ≤ 1) ∧
    ((∀ v ∈ prRawVals g it d, ∀ w ∈ prRawVals g it d, v = w) →
        ∀ v ∈ (edgePageRank g it d).map (fun e => e.2), v = 0) ∧
    ((¬ ∀ v ∈ prRawVals g it d, ∀ w ∈ prRawVals g it d, v = w) →
        (0 : ℚ) ∈ (edgePageRank g it d).map (fun e => e.2) ∧
        (1 : ℚ) ∈ (edgePageRank g it d).map (fun e => e.2)) := by
  have hN : g.nodes.length ≠ 0 := fun h => hne (List.length_eq_zero.mp h)
  have hvalsne : prRawVals g it d ≠ [] := by
    unfold prRawVals
    simp only [ne_eq, List.map_eq_nil_iff, List.range_eq_nil]
    exact hN
  have hvals := edgePageRank_values g it d hkeys
  have hminmem : jsMinList (prRawVals g it d) ∈ prRawVals g it d :=
    jsMinList_mem _ hvalsne
  have hmaxmem : jsMaxList (prRawVals g it d) ∈ prRawVals g it d :=
    jsMaxList_mem _ hvalsne
  have hminmax : jsMinList (prRawVals g it d) ≤ jsMaxList (prRawVals g it d) :=
    le_jsMaxList _ _ hminmem
  refine ⟨?_, ?_, ?_⟩
  · intro v hv
    rw [hvals] at hv
    obtain ⟨i, hi, hrfl⟩ := List.mem_map.mp hv
    have hsc : prScores g.nodes.length g.links it d i ∈ prRawVals g it d :=
      List.mem_map.mpr ⟨i, hi, rfl⟩
    have hle1 : jsMinList (prRawVals g it d) ≤
        prScores g.nodes.length g.links it d i := jsMinList_le _ _ hsc
    have hle2 : prScores g.nodes.length g.links it d i ≤
        jsMaxList (prRawVals g it d) := le_jsMaxList _ _ hsc
    rw [← hrfl]
    unfold prNorm
    by_cases hz : jsMaxList (prRawVals g it d) - jsMinList (prRawVals g it d) = 0
    · rw [if_pos hz]
      have hscmin : prScores g.nodes.length g.links it d i =
          jsMinList (prRawVals g it d) := by
        linarith
      rw [hscmin, sub_self, zero_div]
      norm_num
    · rw [if_neg hz]
      have hpos : 0 < jsMaxList (prRawVals g it d) - jsMinList (prRawVals g it d) :=
        lt_of_le_of_ne (by linarith) (Ne.symm hz)
      constructor
      · apply div_nonneg <;> linarith
      · rw [div_le_one hpos]
        linarith
  · intro heq v hv
    rw [hvals] at hv
    obtain ⟨i, hi, hrfl⟩ := List.mem_map.mp hv
    have hsc : prScores g.nodes.length g.links it d i ∈ prRawVals g it d :=
      List.mem_map.mpr ⟨i, hi, rfl⟩
    have hmin : jsMinList (prRawVals g it d) ∈ prRawVals g it d :=
      jsMinList_mem _ hvalsne
    have : prScores g.nodes.length g.links it d i = jsMinList (prRawVals g it d) :=
      heq _ hsc _ hmin
    rw [← hrfl]
    unfold prNorm
    rw [this, sub_self, zero_div]
  · intro hneq
    have hmax : jsMaxList (prRawVals g it d) ∈ prRawVals g it d :=
      jsMaxList_mem _ hvalsne
    have hmin : jsMinList (prRawVals g it d) ∈ prRawVals g it d :=
      jsMinList_mem _ hvalsne
    have hdiff : jsMaxList (prRawVals g it d) ≠ jsMinList (prRawVals g it d) := by
      intro hEq
      apply hneq
      intro v hv w hw
      have h1 : v ≤ jsMaxList (prRawVals g it d) := le_jsMaxList _ v hv
      have h2 : jsMinList (prRawVals g it d) ≤ v := jsMinList_le _ v hv
      have h3 : w ≤ jsMaxList (prRawVals g it d) := le_jsMaxList _ w hw
      have h4 : jsMinList (prRawVals g it d) ≤ w := jsMinList_le _ w hw
      rw [hEq] at h1 h3
      have : v = jsMinList (prRawVals g it d) := le_antisymm h1 h2
      have hw2 : w = jsMinList (prRawVals g it d) := le_antisymm h3 h4
      rw [this, hw2]
    have hr0 : jsMaxList (prRawVals g it d) - jsMinList (prRawVals g it d) ≠ 0 :=
      sub_ne_zero_of_ne hdiff
    rw [hvals]
    obtain ⟨imin, himin, hieq⟩ := List.mem_map.mp hmin
    obtain ⟨imax, himax, haeq⟩ := List.mem_map.mp hmax
    constructor
    · refine List.mem_map.mpr ⟨imin, himin, ?_⟩
      unfold prNorm
      rw [hieq, sub_self, zero_div]
    · refine List.mem_map.mpr ⟨imax, himax, ?_⟩
      unfold prNorm
      rw [haeq, if_neg hr0, div_self hr0]

/-- Witness for amended C5: a concrete 3-node graph with distinct keys. -/
theorem pageRank_minmax_normalization_witness :
    (⟨[(0, 1), (1, 2), (2, 3)], [(0, 1), (0, 2)]⟩ : EdgeGraph).nodes ≠ [] ∧
    (⟨[(0, 1), (1, 2), (2, 3)], [(0, 1), (0, 2)]⟩ : EdgeGraph).nodes.Nodup ∧
    (∀ v ∈ (edgePageRank ⟨[(0, 1), (1, 2), (2, 3)], [(0, 1), (0, 2)]⟩ 1
        (17/20)).map (fun e => e.2), 0 ≤ v ∧ v ≤ 1) ∧
    (((¬ ∀ v ∈ prRawVals ⟨[(0, 1), (1, 2), (2, 3)], [(0, 1), (0, 2)]⟩ 1 (17/20),
          ∀ w ∈ prRawVals ⟨[(0, 1), (1, 2), (2, 3)], [(0, 1), (0, 2)]⟩ 1 (17/20), v = w) →
        (0 : ℚ) ∈ (edgePageRank ⟨[(0, 1), (1, 2), (2, 3)], [(0, 1), (0, 2)]⟩ 1
            (17/20)).map (fun e => e.2) ∧
        (1 : ℚ) ∈ (edgePageRank ⟨[(0, 1), (1, 2), (2, 3)], [(0, 1), (0, 2)]⟩ 1
            (17/20)).map (fun e => e.2))) :=
  ⟨by decide, by decide,
   (pageRank_minmax_normalization ⟨[(0, 1), (1, 2), (2, 3)], [(0, 1), (0, 2)]⟩ 1
     (17/20) (by decide) (by decide)).1,
   (pageRank_minmax_normalization ⟨[(0, 1), (1, 2), (2, 3)], [(0, 1), (0, 2)]⟩ 1
     (17/20) (by decide) (by decide)).2.2⟩

/-- Counterexample to C5 as stated: with duplicate node keys (which the
claim's universal quantification over edge graphs admits; `buildFoam` can
emit duplicate dual edges on degenerate input), the later `Map.set`
overwrites the earlier normalized score, so the output map misses the
maximum `1` even though the raw scores are not all equal. -/
theorem pageRank_misses_max_with_duplicate_keys :
    prScores 3 [(0, 1), (0, 2)] 1 (17/20) 0 ≠ prScores 3 [(0, 1), (0, 2)] 1 (17/20) 1 ∧
    edgePageRank ⟨[(0, 1), (0, 1), (0, 2)], [(0, 1), (0, 2)]⟩ 1 (17/20) =
      [((0, 1), 0), ((0, 2), 0)] := by
  constructor
  · simp [prScores, prIter, prDistribute, prOutgoing, pushAt, addAt, List.range_succ]
    norm_num
  · simp [edgePageRank, prNorm, prRawVals, prScores, prIter, prDistribute, prOutgoing,
      pushAt, addAt, jsMapSet, jsMaxList, jsMinList, List.range_succ, List.enum]
    norm_num

/-! ## Half-edge adjacency (edgeGraph.js lines 221-315)

The transcendental pieces (`Math.hypot`'s square root and the angular
tolerance `sin(1e-6)` hidden in the gate `acos c > π/2 + 1e-6`, i.e.
`c < -sin(1e-6)`) are abstracted into a `NumModel`; every theorem states the
facts it needs about them as hypotheses. -/

/-- A 3D point or vector with exact rational coordinates. -/
structure Vec3 where
  x : ℚ
  y : ℚ
  z : ℚ
deriving DecidableEq, Repr

def vsub (a b : Vec3) : Vec3 := ⟨a.x - b.x, a.y - b.y, a.z - b.z⟩

def dot3 (a b : Vec3) : ℚ := a.x * b.x + a.y * b.y + a.z * b.z

def normSq (v : Vec3) : ℚ := dot3 v v

/-- One component of `minImageDelta` (core.js): shortest toroidal offset. -/
def micComp (d : ℚ) : ℚ :=
  if d > 1/2 then d - 1 else if d < -(1/2) then d + 1 else d

/-- `minImageDelta(a, b)` (core.js). -/
def minImageDelta (a b : Vec3) : Vec3 :=
  ⟨micComp (b.x - a.x), micComp (b.y - a.y), micComp (b.z - a.z)⟩

/-- `minImagePoint(a, b)` (core.js): `b` moved to the image closest to `a`. -/
def minImagePoint (a b : Vec3) : Vec3 :=
  ⟨a.x + (minImageDelta a b).x, a.y + (minImageDelta a b).y, a.z + (minImageDelta a b).z⟩

/-- Abstraction of the transcendental operations: `sqrt` models `Math.sqrt`
(hence `Math.hypot v = sqrt (normSq v)`), and `sinTol` models `sin(1e-6)`,
the cosine-side form of the `1e-6` angular tolerance in the obtuse gate. -/
structure NumModel where
  sqrt : ℚ → ℚ
  sinTol : ℚ

/-- `Math.hypot(v.x, v.y, v.z)` under the model. -/
def hypotQ (M : NumModel) (v : Vec3) : ℚ := M.sqrt (normSq v)

/-- `1e-12`. -/
def q12 : ℚ := 1 / 10 ^ 12

/-- `Math.hypot(...) || 1e-12` in `angleBetween`. -/
def norFB (M : NumModel) (v : Vec3) : ℚ :=
  if hypotQ M v = 0 then q12 else hypotQ M v

/-- The clamped cosine `Math.max(-1, Math.min(1, dot/(nu*nv)))` of
`angleBetween`; the angle itself is `acos` of this value and is only ever
compared and re-cosined, so the cosine is the value the embedding tracks. -/
def cosClamp (M : NumModel) (u v : Vec3) : ℚ :=
  max (-1) (min 1 (dot3 u v / (norFB M u * norFB M v)))

/-- The foam fields read by `buildHalfEdgeAdjacency`/`calculateEdgeScoresMC`. -/
structure Foam where
  centers : List Vec3
  voronoiEdges : List (ℕ × ℕ)
  isPeriodic : Bool

/-- A half-edge record of `buildHalfEdgeAdjacency`. -/
structure HalfEdge where
  edgeKey : ℕ × ℕ
  fromTet : ℕ
  toTet : ℕ
  atCenter : ℕ
deriving DecidableEq, Repr

/-- `makeEdgeKey`: the dual-edge key as the sorted index pair. -/
def makeEdgeKey (a b : ℕ) : ℕ × ℕ := if a < b then (a, b) else (b, a)

/-- The half-edge creation loop: each dual edge with both centers present
contributes two half-edges, and `edgeKeyToHalf` maps the key to their
indices (later duplicates overwrite, as with `Map.set`). -/
def mkHalfEdges (foam : Foam) : List HalfEdge × List ((ℕ × ℕ) × (ℕ × ℕ)) :=
  foam.voronoiEdges.foldl
    (fun acc p =>
      if (foam.centers.get? p.1).isSome ∧ (foam.centers.get? p.2).isSome then
        (acc.1 ++ [⟨makeEdgeKey p.1 p.2, p.2, p.1, p.1⟩,
                   ⟨makeEdgeKey p.1 p.2, p.1, p.2, p.2⟩],
         jsMapSet acc.2 (makeEdgeKey p.1 p.2) (acc.1.length, acc.1.length + 1))
      else acc)
    ([], [])

/-- `centerToHalf.get(c)`: the indices of half-edges terminating at center
`c`, in creation order. -/
def incidentAt (halfEdges : List HalfEdge) (c : ℕ) : List ℕ :=
  (List.range halfEdges.length).filter
    (fun h => ((halfEdges.get? h).map (fun he => he.atCenter)) = some c)

/-- `vec(a, b)` in `buildHalfEdgeAdjacency`: direction from `a` to `b`,
minimum-image aware when periodic. -/
def heVec (isPeriodic : Bool) (a b : Vec3) : Vec3 :=
  if isPeriodic then vsub (minImagePoint a b) a else vsub b a

/-- The incoming direction `v_in` of a half-edge: from the other endpoint's
center to its terminal center; `none` when either center is missing (the
code's `if (!C) return` / `if (!other) continue`). -/
def dirIn (foam : Foam) (he : HalfEdge) : Option Vec3 :=
  match foam.centers.get? he.atCenter, foam.centers.get? he.fromTet with
  | some c, some o => some (heVec foam.isPeriodic o c)
  | _, _ => none

/-- The outgoing direction `v_out` along candidate half-edge `he` from
center `cIdx`: from that center towards the candidate's other endpoint. -/
def dirOut (foam : Foam) (cIdx : ℕ) (he : HalfEdge) : Option Vec3 :=
  match foam.centers.get? cIdx, foam.centers.get? he.fromTet with
  | some c, some o => some (heVec foam.isPeriodic c o)
  | _, _ => none

/-- The candidate loop body for the transitions out of `hIn` (with incoming
direction `v_in`): skip `hIn` itself, skip the same dual edge, skip missing
centers, keep only cosines below `-sin(1e-6)` (i.e. turn angles strictly
beyond `π/2 + 1e-6`) with weight `max(0, -cos θ) > 0`. -/
def heCandidates (M : NumModel) (foam : Foam) (halfEdges : List HalfEdge)
    (hIn : ℕ) (he : HalfEdge) (vin : Vec3) : List (ℕ × ℚ) :=
  (incidentAt halfEdges he.atCenter).filterMap (fun hOut =>
    if hOut = hIn then none else
    match halfEdges.get? hOut with
    | none => none
    | some heOut =>
      if heOut.edgeKey = he.edgeKey then none else
      match dirOut foam he.atCenter heOut with
      | none => none
      | some vout =>
        if cosClamp M vin vout < -(M.sinTol) then
          (if 0 < max 0 (-(cosClamp M vin vout)) then
            some (hOut, max 0 (-(cosClamp M vin vout)))
          else none)
        else none)

/-- The qualifying transitions out of `hIn` (empty when the half-edge or a
needed center is missing). -/
def mcQualifying (M : NumModel) (foam : Foam) (halfEdges : List HalfEdge)
    (hIn : ℕ) : List (ℕ × ℚ) :=
  match halfEdges.get? hIn with
  | none => []
  | some he =>
    match dirIn foam he with
    | none => []
    | some vin => heCandidates M foam halfEdges hIn he vin

/-- `adj[hIn]`: the locally normalized transitions.  The JS `forEach` over
centers fills each `adj[hIn]` exactly once (from `hIn`'s own terminal
center); this pointwise definition produces the identical array. -/
def adjAt (M : NumModel) (foam : Foam) (halfEdges : List HalfEdge) (hIn : ℕ) :
    List (ℕ × ℚ) :=
  if 0 < ((mcQualifying M foam halfEdges hIn).map (fun e => e.2)).sum then
    (mcQualifying M foam halfEdges hIn).map
      (fun e => (e.1, e.2 / ((mcQualifying M foam halfEdges hIn).map (fun e2 => e2.2)).sum))
  else []

/-- The half-edge graph bundle returned by `buildHalfEdgeAdjacency`. -/
structure HEGraph where
  halfEdges : List HalfEdge
  adj : List (List (ℕ × ℚ))
  edgeKeyToHalf : List ((ℕ × ℕ) × (ℕ × ℕ))
deriving DecidableEq, Repr

/-- `buildHalfEdgeAdjacency` (edgeGraph.js). -/
def buildHalfEdgeAdjacency (M : NumModel) (foam : Foam) : HEGraph :=
  { halfEdges := (mkHalfEdges foam).1
  , adj := (List.range (mkHalfEdges foam).1.length).map
      (adjAt M foam (mkHalfEdges foam).1)
  , edgeKeyToHalf := (mkHalfEdges foam).2 }

/-! ## Monte Carlo edge scoring (edgeGraph.js lines 321-403) -/

/-- FNV-1a over a code-unit sequence, 32-bit.  The source's shift sum
`h + (h<<1) + (h<<4) + (h<<7) + (h<<8) + (h<<24)`, taken `>>> 0`, equals
`h * 16777619 mod 2^32` (16777619 = 1+2+16+128+256+16777216, and JS's
signed 32-bit shifts agree with the unsigned values modulo `2^32`). -/
def fnv1a (codes : List ℕ) : ℕ :=
  codes.foldl (fun h c => (((h ^^^ c) % 2 ^ 32) * 16777619) % 2 ^ 32) 0x811c9dc5

/-- The UTF-16 code units of the decimal string of `n` (digit `d` has code
unit `d + 48`). -/
def natDigitCodes (n : ℕ) : List ℕ := (decDigits n).map (fun d => d + 48)

/-- The code units of the edge-key string `"a-b"` (45 is `-`). -/
def edgeKeyCodes (k : ℕ × ℕ) : List ℕ :=
  natDigitCodes k.1 ++ [45] ++ natDigitCodes k.2

/-- `hashStr(edgeKey) >>> 0`: the FNV-1a content hash of the edge key. -/
def mcSeedBase (k : ℕ × ℕ) : ℕ := fnv1a (edgeKeyCodes k)

/-- One step of the Numerical Recipes LCG, mod `2^32`. -/
def lcgNext (x : ℕ) : ℕ := (1664525 * x + 1013904223) % 2 ^ 32

/-- `(x >>> 8) / 16777216`: the `[0,1)` output of the LCG state. -/
def lcgOut (x : ℕ) : ℚ := ((x / 2 ^ 8 : ℕ) : ℚ) / 16777216

/-- A Monte Carlo walker (`rng` is the current LCG state; the closure in
the source advances the state and then emits `lcgOut` of it). -/
structure Walker where
  h : ℕ
  w : ℚ
  alive : Bool
  rng : ℕ
  visited : List (ℕ × ℕ)
deriving DecidableEq, Repr

/-- The `combine` option values (`'harmonic' | 'min'`). -/
inductive Combine where
  | harmonic : Combine
  | minimum : Combine
deriving DecidableEq, Repr

/-- `fanoutCap`: `{ topM?, cumProb? }`; absent or zero fields are falsy. -/
structure FanoutCap where
  topM : Option ℕ
  cumProb : Option ℚ
deriving DecidableEq, Repr

/-- The `options` object of `calculateEdgeScoresMC`; absent fields are JS
`undefined` (falsy). -/
structure MCOptions where
  useFirstVisit : Option Bool
  combine : Option Combine
  fanoutCap : Option FanoutCap
deriving DecidableEq, Repr

/-- `options.combine || 'harmonic'`. -/
def mcCombine (opts : MCOptions) : Combine := opts.combine.getD Combine.harmonic

/-- `options.useFirstVisit === undefined ? false : !!options.useFirstVisit`. -/
def mcUseFirstVisit (opts : MCOptions) : Bool := opts.useFirstVisit.getD false

/-- `[...outs].sort((a,b) => b.p - a.p)`: stable descending sort by weight. -/
def sortByProbDesc (l : List (ℕ × ℚ)) : List (ℕ × ℚ) :=
  l.insertionSort (fun a b => b.2 ≤ a.2)

/-- The cumulative-probability prefix of the fan-out cap: push entries until
the running probability reaches the (clamped) limit. -/
def cumTake (limit : ℚ) : ℚ → List (ℕ × ℚ) → List (ℕ × ℚ)
  | _, [] => []
  | acc, o :: rest =>
    if limit ≤ acc + o.2 then [o] else o :: cumTake limit (acc + o.2) rest

/-- The optional fan-out cap applied to the outgoing transitions. -/
def applyFanout (fc : FanoutCap) (outs : List (ℕ × ℚ)) : List (ℕ × ℚ) :=
  if fc.topM.getD 0 ≠ 0 then
    (sortByProbDesc outs).take (max 1 (fc.topM.getD 0))
  else if fc.cumProb.getD 0 ≠ 0 then
    cumTake (min (999/1000) (max (1/10) (fc.cumProb.getD 0))) 0 (sortByProbDesc outs)
  else outs

/-- Weighted roulette selection: accumulate probabilities until the sample
`r` is covered; default is the last entry. -/
def roulette (r : ℚ) (dflt : ℕ × ℚ) : ℚ → List (ℕ × ℚ) → ℕ × ℚ
  | _, [] => dflt
  | acc, o :: rest => if r ≤ acc + o.2 then o else roulette r dflt (acc + o.2) rest

/-- One step of one walker; returns the new walker and the arrival mass it
contributes to `totalMass` this step. -/
def mcWalkerStep (halfEdges : List HalfEdge) (adj : List (List (ℕ × ℚ)))
    (alpha : ℚ) (useFirstVisit : Bool) (fc : Option FanoutCap) (wkr : Walker) :
    Walker × ℚ :=
  if !wkr.alive then (wkr, 0) else
  if adj.getD wkr.h [] = [] then ({wkr with alive := false}, 0) else
  let outs := match fc with
    | none => adj.getD wkr.h []
    | some cap => applyFanout cap (adj.getD wkr.h [])
  let rng2 := lcgNext wkr.rng
  let chosen := roulette (lcgOut rng2) (outs.getLastD (0, 0)) 0 outs
  let w2 := wkr.w * (alpha * chosen.2)
  if w2 < q12 then
    ({wkr with h := chosen.1, w := w2, rng := rng2, alive := false}, 0)
  else
    let key := (halfEdges.getD chosen.1 ⟨(0, 0), 0, 0, 0⟩).edgeKey
    if useFirstVisit then
      if key ∈ wkr.visited then
        ({wkr with h := chosen.1, w := w2, rng := rng2}, 0)
      else
        ({wkr with h := chosen.1, w := w2, rng := rng2, visited := wkr.visited ++ [key]}, w2)
    else
      ({wkr with h := chosen.1, w := w2, rng := rng2}, w2)

/-- One simulation step over all walkers in order, threading `totalMass`. -/
def mcStep (halfEdges : List HalfEdge) (adj : List (List (ℕ × ℚ)))
    (alpha : ℚ) (useFirstVisit : Bool) (fc : Option FanoutCap)
    (st : List Walker × ℚ) : List Walker × ℚ :=
  st.1.foldl
    (fun acc wkr =>
      (acc.1 ++ [(mcWalkerStep halfEdges adj alpha useFirstVisit fc wkr).1],
       acc.2 + (mcWalkerStep halfEdges adj alpha useFirstVisit fc wkr).2))
    ([], st.2)

/-- The initial walker population: `K` walkers of weight `1/K` at `hStart`,
walker `wi` seeded with `(seedBase ^ wi) >>> 0`. -/
def mcInitWalkers (hStart seedBase K : ℕ) : List Walker :=
  (List.range K).map (fun wi =>
    ⟨hStart, 1 / (K : ℚ), true, (seedBase ^^^ wi) % 2 ^ 32, []⟩)

/-- `simulateFrom(hStart, seedBase)`: run `K` walkers for up to `L` steps
and return the accumulated arrival mass. -/
def simulateFrom (halfEdges : List HalfEdge) (adj : List (List (ℕ × ℚ)))
    (L K : ℕ) (alpha : ℚ) (useFirstVisit : Bool) (fc : Option FanoutCap)
    (hStart seedBase : ℕ) : ℚ :=
  ((List.range L).foldl
    (fun st _ => mcStep halfEdges adj alpha useFirstVisit fc st)
    (mcInitWalkers hStart seedBase K, 0)).2

/-- The `d1` total of a dual edge: simulation from the half-edge arriving
at the lower-index endpoint, seeded with the FNV-1a hash of the edge key
xor `0x9e3779b9`. -/
def mcD1 (halfEdges : List HalfEdge) (adj : List (List (ℕ × ℚ)))
    (L K : ℕ) (alpha : ℚ) (opts : MCOptions) (ek : ℕ × ℕ) (h1 : ℕ) : ℚ :=
  simulateFrom halfEdges adj L K alpha (mcUseFirstVisit opts) opts.fanoutCap
    h1 ((mcSeedBase ek ^^^ 0x9e3779b9) % 2 ^ 32)

/-- The `d2` total: the other half-edge, seed xor `0x85ebca6b`. -/
def mcD2 (halfEdges : List HalfEdge) (adj : List (List (ℕ × ℚ)))
    (L K : ℕ) (alpha : ℚ) (opts : MCOptions) (ek : ℕ × ℕ) (h2 : ℕ) : ℚ :=
  simulateFrom halfEdges adj L K alpha (mcUseFirstVisit opts) opts.fanoutCap
    h2 ((mcSeedBase ek ^^^ 0x85ebca6b) % 2 ^ 32)

/-- The combined raw score of a dual edge: harmonic mean (0 unless both
sides are positive) by default, minimum otherwise. -/
def mcRawScore (halfEdges : List HalfEdge) (adj : List (List (ℕ × ℚ)))
    (L K : ℕ) (alpha : ℚ) (opts : MCOptions) (ek : ℕ × ℕ) (h1 h2 : ℕ) : ℚ :=
  match mcCombine opts with
  | Combine.harmonic =>
    if 0 < mcD1 halfEdges adj L K alpha opts ek h1 ∧
       0 < mcD2 halfEdges adj L K alpha opts ek h2 then
      2 * mcD1 halfEdges adj L K alpha opts ek h1
        * mcD2 halfEdges adj L K alpha opts ek h2
        / (mcD1 halfEdges adj L K alpha opts ek h1
          + mcD2 halfEdges adj L K alpha opts ek h2)
    else 0
  | Combine.minimum =>
    min (mcD1 halfEdges adj L K alpha opts ek h1)
      (mcD2 halfEdges adj L K alpha opts ek h2)

/-- The raw per-edge score map, keyed like `edgeKeyToHalf`. -/
def mcRaw (g : HEGraph) (L K : ℕ) (alpha : ℚ) (opts : MCOptions) :
    List ((ℕ × ℕ) × ℚ) :=
  g.edgeKeyToHalf.map (fun e =>
    (e.1, mcRawScore g.halfEdges g.adj L K alpha opts e.1 e.2.1 e.2.2))

/-- The scoring pipeline applied to an already-built half-edge graph:
empty result for an empty edge set, else min-max normalization of the raw
scores (`(max - min) || 1`). -/
def mcScoresFromGraph (g : HEGraph) (L K : ℕ) (alpha : ℚ) (opts : MCOptions) :
    List ((ℕ × ℕ) × ℚ) :=
  if g.edgeKeyToHalf = [] then [] else
  (mcRaw g L K alpha opts).map (fun e =>
    (e.1, (e.2 - jsMinList ((mcRaw g L K alpha opts).map (fun x => x.2)))
      / (if jsMaxList ((mcRaw g L K alpha opts).map (fun x => x.2))
            - jsMinList ((mcRaw g L K alpha opts).map (fun x => x.2)) = 0 then 1
         else jsMaxList ((mcRaw g L K alpha opts).map (fun x => x.2))
            - jsMinList ((mcRaw g L K alpha opts).map (fun x => x.2)))))

/-- `calculateEdgeScoresMC` (edgeGraph.js): build the half-edge graph, then
score it. -/
def calculateEdgeScoresMC (M : NumModel) (foam : Foam) (L K : ℕ) (alpha : ℚ)
    (opts : MCOptions) : List ((ℕ × ℕ) × ℚ) :=
  mcScoresFromGraph (buildHalfEdgeAdjacency M foam) L K alpha opts

/-! ## Claims C8, C1, C9 -/

/-- Claim C8.  Both scoring engines return an empty mapping instead of
failing on an empty graph: `edgePageRank` returns an empty map when the edge
graph has zero nodes, and `calculateEdgeScoresMC` returns an empty map when
the foam has zero dual edges. -/
theorem engines_empty_graph_empty_map :
    (∀ (links : List (ℕ × ℕ)) (iterations : ℕ) (damping : ℚ),
       edgePageRank ⟨[], links⟩ iterations damping = []) ∧
    (∀ (M : NumModel) (foam : Foam) (L K : ℕ) (alpha : ℚ) (opts : MCOptions),
       foam.voronoiEdges = [] → calculateEdgeScoresMC M foam L K alpha opts = []) := by
  constructor
  · intro links it d
    simp [edgePageRank]
  · intro M foam L K alpha opts h
    have hmk : mkHalfEdges foam = ([], []) := by
      unfold mkHalfEdges
      rw [h]
      rfl
    unfold calculateEdgeScoresMC buildHalfEdgeAdjacency
    rw [hmk]
    simp [mcScoresFromGraph]

/-- Witness for C8 at a concrete empty foam. -/
theorem engines_empty_graph_empty_map_witness :
    (⟨[], [], false⟩ : Foam).voronoiEdges = [] ∧
    calculateEdgeScoresMC ⟨fun x => x, 1/1000000⟩ ⟨[], [], false⟩ 8 64 (9/10)
      ⟨none, none, none⟩ = [] :=
  ⟨rfl, engines_empty_graph_empty_map.2 ⟨fun x => x, 1/1000000⟩ ⟨[], [], false⟩
    8 64 (9/10) ⟨none, none, none⟩ rfl⟩

/-- Claim C1.  Monte Carlo edge scoring is deterministic: the embedding is a
pure function, so two runs on identical inputs produce identical score maps;
the result depends on the foam only through the half-edge graph; and walker
`wi` of a simulation is seeded exactly from the FNV-1a content hash of the
dual-edge key (xor the per-side constant) combined with the walker index —
its entire random sequence is the LCG stream of that seed. -/
theorem mc_scoring_deterministic :
    (∀ (M : NumModel) (f1 f2 : Foam) (L K : ℕ) (alpha : ℚ) (opts : MCOptions),
        f1 = f2 →
        calculateEdgeScoresMC M f1 L K alpha opts
          = calculateEdgeScoresMC M f2 L K alpha opts) ∧
    (∀ (M : NumModel) (f1 f2 : Foam) (L K : ℕ) (alpha : ℚ) (opts : MCOptions),
        buildHalfEdgeAdjacency M f1 = buildHalfEdgeAdjacency M f2 →
        calculateEdgeScoresMC M f1 L K alpha opts
          = calculateEdgeScoresMC M f2 L K alpha opts) ∧
    (∀ (ek : ℕ × ℕ) (h1 K wi : ℕ), wi < K →
        ((mcInitWalkers h1 ((mcSeedBase ek ^^^ 0x9e3779b9) % 2 ^ 32) K).get? wi).map
            (fun w => w.rng)
          = some (((fnv1a (edgeKeyCodes ek) ^^^ 0x9e3779b9) % 2 ^ 32 ^^^ wi) % 2 ^ 32)) := by
  refine ⟨?_, ?_, ?_⟩
  · intro M f1 f2 L K alpha opts h
    rw [h]
  · intro M f1 f2 L K alpha opts h
    unfold calculateEdgeScoresMC
    rw [h]
  · intro ek h1 K wi hwi
    unfold mcInitWalkers mcSeedBase
    simp only [List.get?_eq_getElem?, List.getElem?_map, List.getElem?_range hwi,
      Option.map_some]
    rfl

/-- Witness for C1: two runs on one concrete foam coincide. -/
theorem mc_scoring_deterministic_witness :
    calculateEdgeScoresMC ⟨fun x => x, 1/1000000⟩
        ⟨[⟨0, 0, 0⟩, ⟨1, 0, 0⟩], [(0, 1)], false⟩ 2 2 (9/10) ⟨none, none, none⟩
      = calculateEdgeScoresMC ⟨fun x => x, 1/1000000⟩
        ⟨[⟨0, 0, 0⟩, ⟨1, 0, 0⟩], [(0, 1)], false⟩ 2 2 (9/10) ⟨none, none, none⟩ :=
  mc_scoring_deterministic.1 ⟨fun x => x, 1/1000000⟩
    ⟨[⟨0, 0, 0⟩, ⟨1, 0, 0⟩], [(0, 1)], false⟩
    ⟨[⟨0, 0, 0⟩, ⟨1, 0, 0⟩], [(0, 1)], false⟩ 2 2 (9/10) ⟨none, none, none⟩ rfl

/-- Claim C9.  Under the default harmonic combination mode, the combined raw
score of a dual edge (as computed by `calculateEdgeScoresMC` through
`mcRaw`/`mcRawScore`) is `0` whenever either half-edge simulation total is
`0`, and equals the harmonic mean `2*d1*d2/(d1+d2)` when both totals are
positive. -/
theorem mc_harmonic_combination (halfEdges : List HalfEdge)
    (adj : List (List (ℕ × ℚ))) (L K : ℕ) (alpha : ℚ) (opts : MCOptions)
    (ek : ℕ × ℕ) (h1 h2 : ℕ)
    (hc : mcCombine opts = Combine.harmonic) :
    (mcD1 halfEdges adj L K alpha opts ek h1 = 0 ∨
       mcD2 halfEdges adj L K alpha opts ek h2 = 0 →
       mcRawScore halfEdges adj L K alpha opts ek h1 h2 = 0) ∧
    (0 < mcD1 halfEdges adj L K alpha opts ek h1 →
       0 < mcD2 halfEdges adj L K alpha opts ek h2 →
       mcRawScore halfEdges adj L K alpha opts ek h1 h2 =
         2 * mcD1 halfEdges adj L K alpha opts ek h1
           * mcD2 halfEdges adj L K alpha opts ek h2
           / (mcD1 halfEdges adj L K alpha opts ek h1
             + mcD2 halfEdges adj L K alpha opts ek h2)) := by
  unfold mcRawScore
  rw [hc]
  constructor
  · intro h
    rw [if_neg]
    intro ⟨hp1, hp2⟩
    rcases h with h | h
    · rw [h] at hp1; exact lt_irrefl 0 hp1
    · rw [h] at hp2; exact lt_irrefl 0 hp2
  · intro hd1 hd2
    rw [if_pos ⟨hd1, hd2⟩]

/-- Witness for C9: with no transitions at all, both totals are `0` and the
raw score is `0`. -/
theorem mc_harmonic_combination_witness :
    mcCombine ⟨none, none, none⟩ = Combine.harmonic ∧
    mcRawScore [] [] 1 1 1 ⟨none, none, none⟩ (0, 1) 0 1 = 0 :=
  ⟨rfl,
   (mc_harmonic_combination [] [] 1 1 1 ⟨none, none, none⟩ (0, 1) 0 1 rfl).1
     (Or.inl (by
       simp [mcD1, simulateFrom, mcStep, mcInitWalkers, mcWalkerStep,
         List.range_succ]))⟩

/-! ## Claim C6: invariants of the half-edge adjacency -/

theorem mem_incidentAt (halfEdges : List HalfEdge) (c h : ℕ)
    (hm : h ∈ incidentAt halfEdges c) :
    ((halfEdges.get? h).map (fun he => he.atCenter)) = some c := by
  unfold incidentAt at hm
  have := (List.mem_filter.mp hm).2
  exact of_decide_eq_true this

theorem mem_heCandidates {M : NumModel} {foam : Foam} {halfEdges : List HalfEdge}
    {hIn : ℕ} {he : HalfEdge} {vin : Vec3} {e : ℕ × ℚ}
    (hmem : e ∈ heCandidates M foam halfEdges hIn he vin) :
    ∃ heOut vout,
      halfEdges.get? e.1 = some heOut ∧
      heOut.atCenter = he.atCenter ∧
      e.1 ≠ hIn ∧
      heOut.edgeKey ≠ he.edgeKey ∧
      dirOut foam he.atCenter heOut = some vout ∧
      cosClamp M vin vout < -(M.sinTol) ∧
      e.2 = max 0 (-(cosClamp M vin vout)) ∧
      0 < e.2 := by
  unfold heCandidates at hmem
  obtain ⟨hOut, hin2, hf⟩ := List.mem_filterMap.mp hmem
  split at hf
  · exact absurd hf (by simp)
  · rename_i h1
    split at hf
    · exact absurd hf (by simp)
    · rename_i heOut hg
      split at hf
      · exact absurd hf (by simp)
      · rename_i h2
        split at hf
        · exact absurd hf (by simp)
        · rename_i vout hd
          split at hf
          · rename_i h3
            split at hf
            · rename_i h4
              have he2 : (hOut, max 0 (-(cosClamp M vin vout))) = e :=
                Option.some_inj.mp hf
              have hc : ((halfEdges.get? hOut).map (fun x => x.atCenter)) =
                  some he.atCenter := mem_incidentAt halfEdges he.atCenter hOut hin2
              rw [hg] at hc
              simp only [Option.map] at hc
              refine ⟨heOut, vout, ?_, Option.some_inj.mp hc, ?_, h2, hd, h3, ?_, ?_⟩
              · rw [← he2]; exact hg
              · rw [← he2]; exact h1
              · rw [← he2]
              · rw [← he2]; exact h4
            · exact absurd hf (by simp)
          · exact absurd hf (by simp)

theorem normSq_nonneg (v : Vec3) : 0 ≤ normSq v := by
  unfold normSq dot3
  have hx := mul_self_nonneg v.x
  have hy := mul_self_nonneg v.y
  have hz := mul_self_nonneg v.z
  linarith

theorem norFB_pos (M : NumModel) (v : Vec3)
    (hs : ∀ x : ℚ, 0 < x → 0 < M.sqrt x) (hs0 : M.sqrt 0 = 0) :
    0 < norFB M v := by
  unfold norFB
  by_cases h : hypotQ M v = 0
  · rw [if_pos h]
    unfold q12
    norm_num
  · rw [if_neg h]
    unfold hypotQ at h ⊢
    rcases lt_or_eq_of_le (normSq_nonneg v) with hlt | heq
    · exact hs _ hlt
    · rw [← heq, hs0] at h
      exact absurd rfl h

/-- A transition kept by the obtuse gate has a strictly negative dot product
between its incoming and outgoing directions (a strictly obtuse turn). -/
theorem dot3_neg_of_gate (M : NumModel) (u v : Vec3)
    (hs : ∀ x : ℚ, 0 < x → 0 < M.sqrt x) (hs0 : M.sqrt 0 = 0)
    (ht : 0 < M.sinTol)
    (hg : cosClamp M u v < -(M.sinTol)) : dot3 u v < 0 := by
  unfold cosClamp at hg
  have h0 : max (-1 : ℚ) (min 1 (dot3 u v / (norFB M u * norFB M v))) < 0 := by
    calc max (-1 : ℚ) (min 1 (dot3 u v / (norFB M u * norFB M v)))
        < -(M.sinTol) := hg
      _ < 0 := by linarith
  have h1 : min (1 : ℚ) (dot3 u v / (norFB M u * norFB M v)) < 0 :=
    lt_of_le_of_lt (le_max_right _ _) h0
  have h2 : dot3 u v / (norFB M u * norFB M v) < 0 := by
    rcases min_choice (1 : ℚ) (dot3 u v / (norFB M u * norFB M v)) with hm | hm
    · rw [hm] at h1; linarith
    · rw [hm] at h1; exact h1
  have hprod : 0 < norFB M u * norFB M v :=
    mul_pos (norFB_pos M u hs hs0) (norFB_pos M v hs hs0)
  rcases div_neg_iff.mp h2 with ⟨_, hneg⟩ | ⟨hneg, _⟩
  · linarith
  · exact hneg

theorem sum_map_div (l : List ℚ) (t : ℚ) :
    (l.map (fun q => q / t)).sum = l.sum / t := by
  induction l with
  | nil => simp
  | cons x xs ih => simp [ih, add_div]

theorem mcQualifying_pos (M : NumModel) (foam : Foam) (halfEdges : List HalfEdge)
    (hIn : ℕ) : ∀ e ∈ mcQualifying M foam halfEdges hIn, 0 < e.2 := by
  intro e he
  unfold mcQualifying at he
  split at he
  · simp at he
  · rename_i heIn hg
    split at he
    · simp at he
    · rename_i vin hd
      obtain ⟨_, _, _, _, _, _, _, _, _, hpos⟩ := mem_heCandidates he
      exact hpos

/-- Claim C6.  In the half-edge adjacency built by `buildHalfEdgeAdjacency`:
every transition goes between half-edges terminating at the same center;
never to (the reverse of) the same dual edge; only through a strictly obtuse
turn (`dot3` of the incoming and outgoing directions is negative); the
outgoing probabilities of a half-edge with at least one transition sum to 1;
and a half-edge with no qualifying transition has an empty list. -/
theorem halfEdge_adjacency_invariants (M : NumModel) (foam : Foam)
    (hs : ∀ x : ℚ, 0 < x → 0 < M.sqrt x) (hs0 : M.sqrt 0 = 0)
    (ht : 0 < M.sinTol) :
    ∀ hIn l, (buildHalfEdgeAdjacency M foam).adj.get? hIn = some l →
      (∀ e ∈ l, ∃ heIn heOut,
          (buildHalfEdgeAdjacency M foam).halfEdges.get? hIn = some heIn ∧
          (buildHalfEdgeAdjacency M foam).halfEdges.get? e.1 = some heOut ∧
          heOut.atCenter = heIn.atCenter ∧
          heOut.edgeKey ≠ heIn.edgeKey ∧
          (∃ u v, dirIn foam heIn = some u ∧
            dirOut foam heIn.atCenter heOut = some v ∧ dot3 u v < 0)) ∧
      (l ≠ [] → (l.map (fun e => e.2)).sum = 1) ∧
      (mcQualifying M foam (buildHalfEdgeAdjacency M foam).halfEdges hIn = [] →
        l = []) := by
  intro hIn l hl
  have hadj : l = adjAt M foam (mkHalfEdges foam).1 hIn := by
    unfold buildHalfEdgeAdjacency at hl
    simp only [List.get?_eq_getElem?, List.getElem?_map] at hl
    by_cases hlt : hIn < (mkHalfEdges foam).1.length
    · rw [List.getElem?_range hlt] at hl
      simp only [Option.map] at hl
      exact (Option.some_inj.mp hl).symm
    · rw [List.getElem?_eq_none
        (by simpa using Nat.le_of_not_lt hlt)] at hl
      simp at hl
  have hHE : (buildHalfEdgeAdjacency M foam).halfEdges = (mkHalfEdges foam).1 := rfl
  rw [hadj, hHE]
  unfold adjAt
  by_cases hpos :
      0 < ((mcQualifying M foam (mkHalfEdges foam).1 hIn).map (fun e => e.2)).sum
  · rw [if_pos hpos]
    have hsum_ne :
        ((mcQualifying M foam (mkHalfEdges foam).1 hIn).map (fun e => e.2)).sum ≠ 0 :=
      ne_of_gt hpos
    refine ⟨?_, ?_, ?_⟩
    · intro e he2
      obtain ⟨c, hc, hce⟩ := List.mem_map.mp he2
      have hq := hc
      unfold mcQualifying at hq
      split at hq
      · simp at hq
      · rename_i heIn hg
        split at hq
        · simp at hq
        · rename_i vin hd
          obtain ⟨heOut, vout, hgo, hcen, hne, hkey, hdo, hgate, hw, hwpos⟩ :=
            mem_heCandidates hq
          refine ⟨heIn, heOut, hg, ?_, hcen, hkey, vin, vout, hd, hdo,
            dot3_neg_of_gate M vin vout hs hs0 ht hgate⟩
          rw [← hce]
          exact hgo
    · intro _
      rw [List.map_map]
      have : ((fun e : ℕ × ℚ => e.2) ∘ fun e : ℕ × ℚ =>
          (e.1, e.2 / ((mcQualifying M foam (mkHalfEdges foam).1 hIn).map
            (fun e2 => e2.2)).sum)) =
          (fun q => q / ((mcQualifying M foam (mkHalfEdges foam).1 hIn).map
            (fun e2 => e2.2)).sum) ∘ (fun e : ℕ × ℚ => e.2) := rfl
      rw [this, ← List.map_map, sum_map_div]
      exact div_self hsum_ne
    · intro hq0
      rw [hq0]
      simp
  · rw [if_neg hpos]
    exact ⟨by simp, by simp, fun _ => rfl⟩

/-- Witness for C6: the hypotheses hold for the identity-sqrt model with
tolerance `1/10^6`, at a concrete foam. -/
theorem halfEdge_adjacency_invariants_witness :
    (∀ x : ℚ, 0 < x → 0 < x) ∧ (0 : ℚ) < 1/1000000 ∧
    (∀ hIn l,
      (buildHalfEdgeAdjacency ⟨fun x => x, 1/1000000⟩
          ⟨[⟨0, 0, 0⟩, ⟨1, 0, 0⟩, ⟨2, 0, 0⟩, ⟨0, 0, 0⟩],
            [(0, 1), (0, 2), (1, 3)], false⟩).adj.get? hIn = some l →
      (∀ e ∈ l, ∃ heIn heOut,
          (buildHalfEdgeAdjacency ⟨fun x => x, 1/1000000⟩
              ⟨[⟨0, 0, 0⟩, ⟨1, 0, 0⟩, ⟨2, 0, 0⟩, ⟨0, 0, 0⟩],
                [(0, 1), (0, 2), (1, 3)], false⟩).halfEdges.get? hIn = some heIn ∧
          (buildHalfEdgeAdjacency ⟨fun x => x, 1/1000000⟩
              ⟨[⟨0, 0, 0⟩, ⟨1, 0, 0⟩, ⟨2, 0, 0⟩, ⟨0, 0, 0⟩],
                [(0, 1), (0, 2), (1, 3)], false⟩).halfEdges.get? e.1 = some heOut ∧
          heOut.atCenter = heIn.atCenter ∧
          heOut.edgeKey ≠ heIn.edgeKey ∧
          (∃ u v, dirIn ⟨[⟨0, 0, 0⟩, ⟨1, 0, 0⟩, ⟨2, 0, 0⟩, ⟨0, 0, 0⟩],
                [(0, 1), (0, 2), (1, 3)], false⟩ heIn = some u ∧
            dirOut ⟨[⟨0, 0, 0⟩, ⟨1, 0, 0⟩, ⟨2, 0, 0⟩, ⟨0, 0, 0⟩],
                [(0, 1), (0, 2), (1, 3)], false⟩ heIn.atCenter heOut = some v ∧
            dot3 u v < 0)) ∧
      (l ≠ [] → (l.map (fun e => e.2)).sum = 1) ∧
      (mcQualifying ⟨fun x => x, 1/1000000⟩
          ⟨[⟨0, 0, 0⟩, ⟨1, 0, 0⟩, ⟨2, 0, 0⟩, ⟨0, 0, 0⟩],
            [(0, 1), (0, 2), (1, 3)], false⟩
          (buildHalfEdgeAdjacency ⟨fun x => x, 1/1000000⟩
              ⟨[⟨0, 0, 0⟩, ⟨1, 0, 0⟩, ⟨2, 0, 0⟩, ⟨0, 0, 0⟩],
                [(0, 1), (0, 2), (1, 3)], false⟩).halfEdges hIn = [] →
        l = [])) :=
  ⟨fun _ hx => hx, by norm_num,
   halfEdge_adjacency_invariants ⟨fun x => x, 1/1000000⟩
     ⟨[⟨0, 0, 0⟩, ⟨1, 0, 0⟩, ⟨2, 0, 0⟩, ⟨0, 0, 0⟩],
       [(0, 1), (0, 2), (1, 3)], false⟩
     (fun _ hx => hx) rfl (by norm_num)⟩

/-! ## XPBD constraint projection (VoroXAdapter.js lines 93-178)

The projection loop is embedded with the per-tetrahedron percentage
directives `pTet` as a parameter: the claims quantify over all directive
arrays, which covers the values the score-accumulation phase computes.
The per-invocation statistics (`lastStats`) are observability only and are
not modelled. -/

/-- JS truncation toward zero, as used by the `%` operator. -/
def jsTrunc (x : ℚ) : ℤ := if 0 ≤ x then ⌊x⌋ else ⌈x⌉

/-- `x % 1` in JS: remainder with the sign of the dividend. -/
def jsRem1 (x : ℚ) : ℚ := x - jsTrunc x

/-- `((x % 1) + 1) % 1`: the periodic wrap of one coordinate. -/
def jsWrap1 (x : ℚ) : ℚ := jsRem1 (jsRem1 x + 1)

/-- `wrap` in the XPBD block: componentwise `((p%1)+1)%1` when periodic. -/
def wrapPoint (periodic : Bool) (p : Vec3) : Vec3 :=
  if periodic then ⟨jsWrap1 p.x, jsWrap1 p.y, jsWrap1 p.z⟩ else p

def cross3 (u v : Vec3) : Vec3 :=
  ⟨u.y * v.z - u.z * v.y, u.z * v.x - u.x * v.z, u.x * v.y - u.y * v.x⟩

/-- `tetVolume`: one sixth of the absolute triple product. -/
def tetVolume (a b c d : Vec3) : ℚ :=
  |dot3 (cross3 (vsub b a) (vsub c a)) (vsub d a)| / 6

/-- `volGrads`: the four signed-volume gradient directions, each over 6. -/
def volGrads (a b c d : Vec3) : List Vec3 :=
  [cross3 (vsub b d) (vsub c d), cross3 (vsub c d) (vsub a d),
   cross3 (vsub a d) (vsub b d), cross3 (vsub b a) (vsub c a)].map
    (fun g => ⟨g.x / 6, g.y / 6, g.z / 6⟩)

/-- `norm`: divide by `Math.hypot(...) || 1e-12`. -/
def normVec (M : NumModel) (v : Vec3) : Vec3 :=
  ⟨v.x / norFB M v, v.y / norFB M v, v.z / norFB M v⟩

/-- `apply`: displace along a gradient and wrap immediately. -/
def xpbdApply (periodic : Bool) (P g : Vec3) (sgn mag : ℚ) : Vec3 :=
  wrapPoint periodic
    ⟨P.x + sgn * g.x * mag, P.y + sgn * g.y * mag, P.z + sgn * g.z * mag⟩

/-- One tetrahedron of one XPBD iteration: skip degenerate or tiny-error
cases, otherwise read the four points and write their wrapped displaced
positions in order.  A missing point index throws in JS before any write;
it is modelled as a skip (no write happens either way). -/
def xpbdTetStep (M : NumModel) (periodic : Bool) (softness perIterClamp : ℚ)
    (simplices : List Tet) (pTet : ℕ → ℚ) (pts : List Vec3) (ti : ℕ) :
    List Vec3 :=
  if |pTet ti| ≤ 1 / 10 ^ 8 then pts else
  match simplices.get? ti with
  | none => pts
  | some tet =>
    match pts.get? tet.v0, pts.get? tet.v1, pts.get? tet.v2, pts.get? tet.v3 with
    | some A, some B, some C, some D =>
      if q12 < tetVolume A B C D then
        let err := tetVolume A B C D * (1 + pTet ti) - tetVolume A B C D
        if |err| < 1 / 10 ^ 10 then pts
        else
          let grads := (volGrads A B C D).map (normVec M)
          let sgn : ℚ := if 0 < err then 1 else -1
          let mag := softness * min perIterClamp (|err| / (tetVolume A B C D + q12))
          (((pts.set tet.v0
              (xpbdApply periodic A (grads.getD 0 ⟨0, 0, 0⟩) sgn mag)).set tet.v1
              (xpbdApply periodic B (grads.getD 1 ⟨0, 0, 0⟩) sgn mag)).set tet.v2
              (xpbdApply periodic C (grads.getD 2 ⟨0, 0, 0⟩) sgn mag)).set tet.v3
              (xpbdApply periodic D (grads.getD 3 ⟨0, 0, 0⟩) sgn mag)
      else pts
    | _, _, _, _ => pts

/-- One full XPBD iteration over all tetrahedra. -/
def xpbdIteration (M : NumModel) (periodic : Bool) (softness perIterClamp : ℚ)
    (simplices : List Tet) (pTet : ℕ → ℚ) (pts : List Vec3) : List Vec3 :=
  (List.range simplices.length).foldl
    (xpbdTetStep M periodic softness perIterClamp simplices pTet) pts

/-- The XPBD projection: `iters` iterations of the tetrahedron loop. -/
def xpbdProject (M : NumModel) (periodic : Bool) (softness perIterClamp : ℚ)
    (simplices : List Tet) (pTet : ℕ → ℚ) (iters : ℕ) (pts : List Vec3) :
    List Vec3 :=
  (List.range iters).foldl
    (fun ps _ => xpbdIteration M periodic softness perIterClamp simplices pTet ps)
    pts

/-! ## Claim C7: the periodic wrap invariant of the projector -/

/-- A coordinate lies in the unit interval `[0, 1)`. -/
def inUnit (q : ℚ) : Prop := 0 ≤ q ∧ q < 1

/-- A point lies in the unit cube `[0, 1)^3`. -/
def inCube (v : Vec3) : Prop := inUnit v.x ∧ inUnit v.y ∧ inUnit v.z

theorem jsRem1_eq_fract (x : ℚ) (h : 0 ≤ x) : jsRem1 x = Int.fract x := by
  unfold jsRem1 jsTrunc Int.fract
  rw [if_pos h]

theorem jsRem1_gt_neg_one (x : ℚ) : -1 < jsRem1 x := by
  unfold jsRem1 jsTrunc
  by_cases h : 0 ≤ x
  · rw [if_pos h]
    have := Int.fract_nonneg x
    unfold Int.fract at this
    linarith
  · rw [if_neg h]
    have := Int.ceil_lt_add_one x
    push_cast at this ⊢
    linarith

theorem jsWrap1_inUnit (x : ℚ) : inUnit (jsWrap1 x) := by
  unfold jsWrap1
  have hpos : 0 ≤ jsRem1 x + 1 := by
    have := jsRem1_gt_neg_one x
    linarith
  rw [jsRem1_eq_fract _ hpos]
  exact ⟨Int.fract_nonneg _, Int.fract_lt_one _⟩

theorem wrapPoint_inCube (p : Vec3) : inCube (wrapPoint true p) := by
  unfold wrapPoint inCube
  exact ⟨jsWrap1_inUnit _, jsWrap1_inUnit _, jsWrap1_inUnit _⟩

theorem xpbdApply_inCube (P g : Vec3) (sgn mag : ℚ) :
    inCube (xpbdApply true P g sgn mag) := wrapPoint_inCube _

/-- The preservation predicate: every entry is either the original entry or
a point of the unit cube. -/
def PtsPres (pts0 pts : List Vec3) : Prop :=
  ∀ i, pts.get? i = pts0.get? i ∨ ∃ p, pts.get? i = some p ∧ inCube p

theorem ptsPres_refl (pts : List Vec3) : PtsPres pts pts := fun _ => Or.inl rfl

theorem ptsPres_set (pts0 pts : List Vec3) (n : ℕ) (v : Vec3)
    (h : PtsPres pts0 pts) (hv : inCube v) : PtsPres pts0 (pts.set n v) := by
  intro i
  by_cases hi : n = i
  · subst hi
    by_cases hn : n < pts.length
    · right
      refine ⟨v, ?_, hv⟩
      simp [List.get?_eq_getElem?, List.getElem?_set, hn]
    · have : pts.set n v = pts := List.set_eq_of_length_le (Nat.le_of_not_lt hn)
      rw [this]
      exact h n
  · have : (pts.set n v).get? i = pts.get? i := by
      simp [List.get?_eq_getElem?, List.getElem?_set, hi]
    rw [this]
    exact h i

theorem ptsPres_tetStep (M : NumModel) (softness perIterClamp : ℚ)
    (simplices : List Tet) (pTet : ℕ → ℚ) (pts0 pts : List Vec3) (ti : ℕ)
    (h : PtsPres pts0 pts) :
    PtsPres pts0 (xpbdTetStep M true softness perIterClamp simplices pTet pts ti) := by
  unfold xpbdTetStep
  split
  · exact h
  · split
    · exact h
    · split
      · dsimp only
        split
        · split
          · exact h
          · exact ptsPres_set _ _ _ _
              (ptsPres_set _ _ _ _
                (ptsPres_set _ _ _ _
                  (ptsPres_set _ _ _ _ h (xpbdApply_inCube _ _ _ _))
                  (xpbdApply_inCube _ _ _ _))
                (xpbdApply_inCube _ _ _ _))
              (xpbdApply_inCube _ _ _ _)
        · exact h
      · exact h

theorem ptsPres_foldl (pts0 : List Vec3) (f : List Vec3 → ℕ → List Vec3)
    (hf : ∀ pts ti, PtsPres pts0 pts → PtsPres pts0 (f pts ti))
    (l : List ℕ) (pts : List Vec3) (h : PtsPres pts0 pts) :
    PtsPres pts0 (l.foldl f pts) := by
  induction l generalizing pts with
  | nil => exact h
  | cons a rest ih => exact ih (f pts a) (hf pts a h)

/-- Claim C7.  In periodic mode the XPBD projector wraps every coordinate it
writes into `[0,1)` immediately (the wrap function lands in the unit
interval for every rational input), so after any number of iterations every
point of the output is either the untouched input point or lies in the unit
cube — in particular the unit-cube invariant is preserved. -/
theorem xpbd_periodic_wrap (M : NumModel) (softness perIterClamp : ℚ)
    (simplices : List Tet) (pTet : ℕ → ℚ) (iters : ℕ) (pts : List Vec3) :
    (∀ x : ℚ, 0 ≤ jsWrap1 x ∧ jsWrap1 x < 1) ∧
    (∀ i, (xpbdProject M true softness perIterClamp simplices pTet iters pts).get? i
            = pts.get? i ∨
          ∃ p, (xpbdProject M true softness perIterClamp simplices pTet iters
              pts).get? i = some p ∧ inCube p) := by
  constructor
  · intro x
    exact jsWrap1_inUnit x
  · have hIter : ∀ (ps : List Vec3) (ti : ℕ), PtsPres pts ps →
        PtsPres pts (xpbdIteration M true softness perIterClamp simplices pTet ps) := by
      intro ps _ hp
      unfold xpbdIteration
      exact ptsPres_foldl pts _
        (fun ps2 ti2 hp2 =>
          ptsPres_tetStep M softness perIterClamp simplices pTet pts ps2 ti2 hp2)
        _ ps hp
    have hAll : PtsPres pts (xpbdProject M true softness perIterClamp simplices
        pTet iters pts) := by
      unfold xpbdProject
      exact ptsPres_foldl pts _ hIter _ pts (ptsPres_refl pts)
    exact hAll

/-! ## Flow/knot detection (`detectKnots`, foam.js variant)

Facets are pairs `(tet, face)`; since the successor table is produced over
the facets (each entry references a facet of the table), facets are typed
`Fin T × Fin 4`.  The JS `T × 4` arrays `visited`/`facetKnot`/`knotDist` are
modelled as functions on facets; the `index` map mirrors the current path,
so `index.has(key)` is path membership and `index.get(key)` is the 1-based
path position. -/

/-- The mutable state of `detectKnots`. -/
structure KnotState (T : ℕ) where
  visited : Fin T × Fin 4 → Bool
  facetKnot : Fin T × Fin 4 → ℕ
  knotDist : Fin T × Fin 4 → ℕ
  knots : List (List (Fin T × Fin 4))
  numCatched : List ℕ

/-- The path-building `while` loop.  The first argument is fuel; the caller
passes `4*T + 1`, which is shown sufficient (the path is duplicate-free in a
type of `4*T` facets). -/
def buildPath {T : ℕ} (act : Fin T × Fin 4 → Option (Fin T × Fin 4))
    (visited : Fin T × Fin 4 → Bool) :
    ℕ → List (Fin T × Fin 4) → Option (Fin T × Fin 4) →
      List (Fin T × Fin 4) × Option (Fin T × Fin 4)
  | 0, path, cur => (path, cur)
  | fuel + 1, path, cur =>
    match cur with
    | none => (path, none)
    | some c =>
      if visited c = true ∨ c ∈ path then (path, some c)
      else buildPath act visited fuel (path ++ [c]) (act c)

/-- `numCatched[k] += 1`. -/
def incAt (l : List ℕ) (k : ℕ) : List ℕ := l.set k (l.getD k 0 + 1)

/-- The assignment loop over the discovered path: mark visited, set the knot
index, and for pre-knot positions set the distance and count the catch. -/
def assignGo {T : ℕ} (target startKnot : ℕ) :
    KnotState T → ℕ → List (Fin T × Fin 4) → KnotState T
  | st, _, [] => st
  | st, i, f :: rest =>
    let st1 : KnotState T :=
      { st with visited := Function.update st.visited f true
                facetKnot := Function.update st.facetKnot f target }
    let st2 : KnotState T :=
      if i + 1 < startKnot then
        { st1 with knotDist := Function.update st1.knotDist f (startKnot - (i + 1))
                   numCatched := if target ≠ 0 then incAt st1.numCatched (target - 1)
                                else st1.numCatched }
      else st1
    assignGo target startKnot st2 (i + 1) rest

/-- One outer-loop iteration of `detectKnots` for facet `s`. -/
def processSlot {T : ℕ} (act : Fin T × Fin 4 → Option (Fin T × Fin 4))
    (st : KnotState T) (s : Fin T × Fin 4) : KnotState T :=
  if st.visited s then st else
  let pr := buildPath act st.visited (4 * T + 1) [s] (act s)
  match pr.2 with
  | none => assignGo 0 (pr.1.length + 1) st 0 pr.1
  | some c =>
    if st.visited c then
      assignGo (st.facetKnot c) (pr.1.length + 1 + st.knotDist c) st 0 pr.1
    else
      let startKnot := pr.1.indexOf c + 1
      let st2 : KnotState T :=
        { st with knots := st.knots ++ [pr.1.drop (startKnot - 1)]
                  numCatched := st.numCatched ++ [0] }
      assignGo st2.knots.length startKnot st2 0 pr.1

/-- All facets in traversal order. -/
def allFacets (T : ℕ) : List (Fin T × Fin 4) :=
  (List.finRange T).flatMap (fun ti => (List.finRange 4).map (fun fi => (ti, fi)))

/-- `detectKnots` (foam.js): fold the outer loop over all facets. -/
def detectKnots (T : ℕ) (act : Fin T × Fin 4 → Option (Fin T × Fin 4)) :
    KnotState T :=
  (allFacets T).foldl (processSlot act)
    ⟨fun _ => false, fun _ => 0, fun _ => 0, [], []⟩

/-- `n`-fold application of the successor function (`none` once the orbit
falls off an open end). -/
def iterSucc {T : ℕ} (act : Fin T × Fin 4 → Option (Fin T × Fin 4)) :
    ℕ → Fin T × Fin 4 → Option (Fin T × Fin 4)
  | 0, s => some s
  | n + 1, s => (act s).bind (iterSucc act n)

/-- The successor path of `s` terminates in (meets) the facet set `Kl`. -/
def feeds {T : ℕ} (act : Fin T × Fin 4 → Option (Fin T × Fin 4))
    (Kl : List (Fin T × Fin 4)) (s : Fin T × Fin 4) : Prop :=
  ∃ n p, iterSucc act n s = some p ∧ p ∈ Kl

/-- `l` is a cycle of the successor function: each entry steps to the next,
cyclically. -/
def isCycle {T : ℕ} (act : Fin T × Fin 4 → Option (Fin T × Fin 4))
    (l : List (Fin T × Fin 4)) : Prop :=
  ∀ i a, l.get? i = some a →
    ∃ b, l.get? ((i + 1) % l.length) = some b ∧ act a = some b

/-- Consecutive path entries are linked by the successor function. -/
def chainList {T : ℕ} (act : Fin T × Fin 4 → Option (Fin T × Fin 4))
    (l : List (Fin T × Fin 4)) : Prop :=
  ∀ i a b, l.get? i = some a → l.get? (i + 1) = some b → act a = some b

theorem iterSucc_add {T : ℕ} (act : Fin T × Fin 4 → Option (Fin T × Fin 4))
    (m n : ℕ) (s : Fin T × Fin 4) :
    iterSucc act (m + n) s = (iterSucc act m s).bind (iterSucc act n) := by
  induction m generalizing s with
  | zero => simp [iterSucc]
  | succ m ih =>
    have h1 : m + 1 + n = (m + n) + 1 := by omega
    rw [h1]
    show (act s).bind (iterSucc act (m + n)) =
      ((act s).bind (iterSucc act m)).bind (iterSucc act n)
    cases act s with
    | none => rfl
    | some x => simp [Option.bind, ih]

theorem iterSucc_one {T : ℕ} (act : Fin T × Fin 4 → Option (Fin T × Fin 4))
    (s : Fin T × Fin 4) : iterSucc act 1 s = act s := by
  show (act s).bind (iterSucc act 0) = act s
  cases act s <;> rfl

theorem chainList_append_last {T : ℕ} (act : Fin T × Fin 4 → Option (Fin T × Fin 4))
    (l : List (Fin T × Fin 4)) (lp c : Fin T × Fin 4) (hch : chainList act l)
    (hlast : l.getLast? = some lp) (hact : act lp = some c) :
    chainList act (l ++ [c]) := by
  intro i a b h1 h2
  have hlen : l ≠ [] := by
    intro h
    rw [h] at hlast
    simp at hlast
  by_cases hi1 : i + 1 < l.length
  · have hi0 : i < l.length := by omega
    rw [List.get?_eq_getElem?, List.getElem?_append_left hi0] at h1
    rw [List.get?_eq_getElem?, List.getElem?_append_left hi1] at h2
    exact hch i a b (by rw [List.get?_eq_getElem?]; exact h1)
      (by rw [List.get?_eq_getElem?]; exact h2)
  · by_cases hi2 : i + 1 = l.length
    · have hi0 : i < l.length := by omega
      rw [List.get?_eq_getElem?, List.getElem?_append_left hi0] at h1
      have hb : b = c := by
        rw [List.get?_eq_getElem?] at h2
        rw [hi2] at h2
        rw [List.getElem?_concat_length] at h2
        exact (Option.some_inj.mp h2).symm
      have ha : a = lp := by
        have heq : l.getLast? = l[i]? := by
          rw [List.getLast?_eq_getElem?]
          congr 1
          omega
        rw [heq, h1] at hlast
        exact Option.some_inj.mp hlast
      rw [ha, hb] at *
      exact hact
    · exfalso
      have : (l ++ [c]).length ≤ i + 1 := by
        simp only [List.length_append, List.length_singleton]
        omega
      rw [List.get?_eq_getElem?, List.getElem?_eq_none this] at h2
      exact absurd h2 (by simp)

theorem chain_orbit {T : ℕ} (act : Fin T × Fin 4 → Option (Fin T × Fin 4))
    (l : List (Fin T × Fin 4)) (hch : chainList act l) :
    ∀ n j a, l.get? j = some a → j + n < l.length →
      iterSucc act n a = l.get? (j + n) := by
  intro n
  induction n with
  | zero =>
    intro j a h1 _
    simpa [iterSucc] using h1.symm
  | succ n ih =>
    intro j a h1 hlt
    have hj1 : j + 1 < l.length := by omega
    have hb : ∃ b, l.get? (j + 1) = some b := by
      rw [List.get?_eq_getElem?]
      exact ⟨l[j + 1], List.getElem?_eq_getElem hj1⟩
    obtain ⟨b, hb⟩ := hb
    have hact : act a = some b := hch j a b h1 hb
    show (act a).bind (iterSucc act n) = l.get? (j + (n + 1))
    rw [hact]
    have : j + (n + 1) = (j + 1) + n := by omega
    rw [this]
    exact ih (j + 1) b hb (by omega)

theorem chain_orbit_exit {T : ℕ} (act : Fin T × Fin 4 → Option (Fin T × Fin 4))
    (l : List (Fin T × Fin 4)) (lp : Fin T × Fin 4)
    (cur : Option (Fin T × Fin 4)) (hch : chainList act l)
    (hlast : l.getLast? = some lp) (hcur : cur = act lp) :
    ∀ j a n, l.get? j = some a → l.length - j ≤ n →
      iterSucc act n a = cur.bind (iterSucc act (n - (l.length - j))) := by
  intro j a n h1 hn
  have hj : j < l.length := by
    by_contra hj
    rw [List.get?_eq_getElem?, List.getElem?_eq_none (by omega)] at h1
    exact absurd h1 (by simp)
  have hm : j + (l.length - 1 - j) < l.length := by omega
  have hlp : iterSucc act (l.length - 1 - j) a = some lp := by
    rw [chain_orbit act l hch _ j a h1 hm]
    rw [List.getLast?_eq_getElem?] at hlast
    rw [List.get?_eq_getElem?]
    have : j + (l.length - 1 - j) = l.length - 1 := by omega
    rw [this]
    exact hlast
  have hstep : iterSucc act (l.length - j) a = cur := by
    have : l.length - j = (l.length - 1 - j) + 1 := by omega
    rw [this, iterSucc_add, hlp]
    show iterSucc act 1 lp = cur
    rw [iterSucc_one, hcur]
  have hsplit : n = (l.length - j) + (n - (l.length - j)) := by omega
  nth_rewrite 1 [hsplit]
  rw [iterSucc_add, hstep]

theorem buildPath_spec {T : ℕ} (act : Fin T × Fin 4 → Option (Fin T × Fin 4))
    (visited : Fin T × Fin 4 → Bool) :
    ∀ (fuel : ℕ) (path : List (Fin T × Fin 4)) (cur : Option (Fin T × Fin 4)),
      path ≠ [] → path.Nodup → (∀ p ∈ path, visited p = false) →
      chainList act path →
      (∀ lp, path.getLast? = some lp → cur = act lp) →
      4 * T + 1 ≤ fuel + path.length →
      (∃ ext, (buildPath act visited fuel path cur).1 = path ++ ext) ∧
      (buildPath act visited fuel path cur).1 ≠ [] ∧
      (buildPath act visited fuel path cur).1.Nodup ∧
      (∀ p ∈ (buildPath act visited fuel path cur).1, visited p = false) ∧
      chainList act (buildPath act visited fuel path cur).1 ∧
      (∀ lp, (buildPath act visited fuel path cur).1.getLast? = some lp →
        (buildPath act visited fuel path cur).2 = act lp) ∧
      ((buildPath act visited fuel path cur).2 = none ∨
        ∃ c, (buildPath act visited fuel path cur).2 = some c ∧
          (visited c = true ∨ c ∈ (buildPath act visited fuel path cur).1)) := by
  intro fuel
  induction fuel with
  | zero =>
    intro path cur hne hnd _ _ _ hfuel
    exfalso
    have hcard : path.length ≤ Fintype.card (Fin T × Fin 4) :=
      List.Nodup.length_le_card hnd
    rw [Fintype.card_prod, Fintype.card_fin, Fintype.card_fin] at hcard
    omega
  | succ fuel ih =>
    intro path cur hne hnd hunvis hch hcur hfuel
    match cur with
    | none =>
      have hout : buildPath act visited (fuel + 1) path none = (path, none) := by
        simp only [buildPath]
      rw [hout]
      exact ⟨⟨[], by simp⟩, hne, hnd, hunvis, hch, fun lp hlp => hcur lp hlp, Or.inl rfl⟩
    | some c =>
      by_cases hstop : visited c = true ∨ c ∈ path
      · have hout : buildPath act visited (fuel + 1) path (some c) = (path, some c) := by
          simp only [buildPath]
          rw [if_pos hstop]
        rw [hout]
        exact ⟨⟨[], by simp⟩, hne, hnd, hunvis, hch, fun lp hlp => hcur lp hlp,
          Or.inr ⟨c, rfl, hstop⟩⟩
      · have hout : buildPath act visited (fuel + 1) path (some c) =
            buildPath act visited fuel (path ++ [c]) (act c) := by
          simp only [buildPath]
          rw [if_neg hstop]
        rw [hout]
        push_neg at hstop
        obtain ⟨hcv, hcm⟩ := hstop
        obtain ⟨lp, hlp⟩ : ∃ lp, path.getLast? = some lp := by
          cases hq : path.getLast? with
          | none => exact absurd (List.getLast?_eq_none_iff.mp hq) hne
          | some x => exact ⟨x, rfl⟩
        have hact : act lp = some c := (hcur lp hlp).symm
        have hres := ih (path ++ [c]) (act c) (by simp) ?_ ?_ ?_ ?_ ?_
        · obtain ⟨⟨ext, hext⟩, r2, r3, r4, r5, r6, r7⟩ := hres
          refine ⟨⟨[c] ++ ext, by rw [hext, List.append_assoc]⟩, r2, r3, r4, r5, r6, r7⟩
        · simp only [List.nodup_append, List.nodup_singleton]
          exact ⟨hnd, by trivial, by
            intro a ha hb
            simp only [List.mem_singleton] at hb
            subst hb
            exact hcm ha⟩
        · intro p hp
          rcases List.mem_append.mp hp with h | h
          · exact hunvis p h
          · simp only [List.mem_singleton] at h
            subst h
            exact Bool.not_eq_true _ ▸ eq_false_of_ne_true hcv
        · exact chainList_append_last act path lp c hch hlp hact
        · intro lp2 hlp2
          rw [List.getLast?_concat] at hlp2
          rw [← Option.some_inj.mp hlp2]
        · simp only [List.length_append, List.length_singleton]
          omega

theorem assignGo_knots {T : ℕ} (target sk : ℕ) (st : KnotState T) (i : ℕ)
    (path : List (Fin T × Fin 4)) :
    (assignGo target sk st i path).knots = st.knots := by
  induction path generalizing st i with
  | nil => rfl
  | cons f rest ih =>
    unfold assignGo
    dsimp only
    rw [ih]
    split <;> rfl

theorem assignGo_numCatched_length {T : ℕ} (target sk : ℕ) (st : KnotState T)
    (i : ℕ) (path : List (Fin T × Fin 4)) :
    (assignGo target sk st i path).numCatched.length = st.numCatched.length := by
  induction path generalizing st i with
  | nil => rfl
  | cons f rest ih =>
    unfold assignGo
    dsimp only
    rw [ih]
    split
    · split <;> simp [incAt]
    · rfl

theorem assignGo_visited {T : ℕ} (target sk : ℕ) (st : KnotState T) (i : ℕ)
    (path : List (Fin T × Fin 4)) (s : Fin T × Fin 4) :
    (assignGo target sk st i path).visited s =
      if s ∈ path then true else st.visited s := by
  induction path generalizing st i with
  | nil => simp [assignGo]
  | cons f rest ih =>
    unfold assignGo
    dsimp only
    split <;>
    · rw [ih]
      by_cases hs : s ∈ rest
      · simp [hs]
      · by_cases hf : s = f
        · subst hf
          simp [hs, Function.update]
        · have hm : (s ∈ f :: rest) = False := by
            simp [hf, hs]
          simp [hm, hs, Function.update, hf]

theorem assignGo_facetKnot {T : ℕ} (target sk : ℕ) (st : KnotState T) (i : ℕ)
    (path : List (Fin T × Fin 4)) (s : Fin T × Fin 4) :
    (assignGo target sk st i path).facetKnot s =
      if s ∈ path then target else st.facetKnot s := by
  induction path generalizing st i with
  | nil => simp [assignGo]
  | cons f rest ih =>
    unfold assignGo
    dsimp only
    split <;>
    · rw [ih]
      by_cases hs : s ∈ rest
      · simp [hs]
      · by_cases hf : s = f
        · subst hf
          simp [hs, Function.update]
        · have hm : (s ∈ f :: rest) = False := by
            simp [hf, hs]
          simp [hm, hs, Function.update, hf]

theorem assignGo_knotDist_out {T : ℕ} (target sk : ℕ) (st : KnotState T) (i : ℕ)
    (path : List (Fin T × Fin 4)) (s : Fin T × Fin 4) (hs : s ∉ path) :
    (assignGo target sk st i path).knotDist s = st.knotDist s := by
  induction path generalizing st i with
  | nil => rfl
  | cons f rest ih =>
    unfold assignGo
    dsimp only
    have hs2 : s ∉ rest := fun h => hs (List.mem_cons_of_mem _ h)
    have hsf : s ≠ f := fun h => hs (h ▸ List.mem_cons_self _ _)
    rw [ih _ _ hs2]
    split
    · simp [Function.update, hsf]
    · rfl

theorem assignGo_knotDist_get {T : ℕ} (target sk : ℕ) :
    ∀ (path : List (Fin T × Fin 4)) (st : KnotState T) (i : ℕ),
      path.Nodup →
      ∀ j a, path.get? j = some a →
        (assignGo target sk st i path).knotDist a =
          if i + j + 1 < sk then sk - (i + j + 1) else st.knotDist a := by
  intro path
  induction path with
  | nil =>
    intro st i _ j a hj
    simp at hj
  | cons f rest ih =>
    intro st i hnd j a hj
    simp only [List.nodup_cons] at hnd
    match j with
    | 0 =>
      have ha : f = a := by simpa using hj
      subst ha
      unfold assignGo
      dsimp only
      rw [assignGo_knotDist_out _ _ _ _ _ _ hnd.1]
      split
      · simp [Function.update]
      · rfl
    | j + 1 =>
      have hj2 : rest.get? j = some a := by
        simpa using hj
      have ha : a ∈ rest := by
        rw [List.get?_eq_getElem?] at hj2
        exact List.getElem?_mem hj2
      have haf : a ≠ f := fun h => hnd.1 (h ▸ ha)
      unfold assignGo
      dsimp only
      rw [ih _ (i + 1) hnd.2 j a hj2]
      have harith : i + 1 + j + 1 = i + (j + 1) + 1 := by omega
      rw [harith]
      split
      · rfl
      · split
        · simp [Function.update, haf]
        · rfl

theorem incAt_getD_self (l : List ℕ) (k : ℕ) (hk : k < l.length) :
    (incAt l k).getD k 0 = l.getD k 0 + 1 := by
  simp [incAt, List.getD, List.getElem?_set_self, hk]

theorem incAt_getD_other (l : List ℕ) (k k2 : ℕ) (hne : k2 ≠ k) :
    (incAt l k).getD k2 0 = l.getD k2 0 := by
  simp [incAt, List.getD, List.getElem?_set_ne (fun h => hne h.symm)]

theorem assignGo_numCatched_zero {T : ℕ} (sk : ℕ) (st : KnotState T) (i : ℕ)
    (path : List (Fin T × Fin 4)) :
    (assignGo 0 sk st i path).numCatched = st.numCatched := by
  induction path generalizing st i with
  | nil => rfl
  | cons f rest ih =>
    unfold assignGo
    dsimp only
    rw [ih]
    split <;> simp

theorem assignGo_numCatched_getD {T : ℕ} (target sk : ℕ) (ht : target ≠ 0) :
    ∀ (path : List (Fin T × Fin 4)) (st : KnotState T) (i : ℕ),
      target - 1 < st.numCatched.length →
      ((assignGo target sk st i path).numCatched.getD (target - 1) 0 =
         st.numCatched.getD (target - 1) 0 + min (sk - i - 1) path.length) ∧
      (∀ k, k ≠ target - 1 →
        (assignGo target sk st i path).numCatched.getD k 0 = st.numCatched.getD k 0) := by
  intro path
  induction path with
  | nil =>
    intro st i _
    exact ⟨by simp [assignGo], fun k _ => rfl⟩
  | cons f rest ih =>
    intro st i hlen
    unfold assignGo
    dsimp only
    split
    · rename_i hlt
      have hlen2 : target - 1 < (incAt st.numCatched (target - 1)).length := by
        simpa [incAt] using hlen
      obtain ⟨h1, h2⟩ := ih
        { visited := Function.update st.visited f true
          facetKnot := Function.update st.facetKnot f target
          knotDist := Function.update st.knotDist f (sk - (i + 1))
          knots := st.knots
          numCatched := incAt st.numCatched (target - 1) } (i + 1) hlen2
      refine ⟨?_, ?_⟩
      · rw [h1]
        have hself : (incAt st.numCatched (target - 1)).getD (target - 1) 0 =
            st.numCatched.getD (target - 1) 0 + 1 := incAt_getD_self _ _ hlen
        rw [hself]
        have hmm : min (sk - (i + 1) - 1) rest.length + 1 =
            min (sk - i - 1) (f :: rest).length := by
          simp only [List.length_cons]
          omega
        omega
      · intro k hk
        rw [h2 k hk]
        exact incAt_getD_other _ _ _ hk
    · rename_i hlt
      obtain ⟨h1, h2⟩ := ih
        { visited := Function.update st.visited f true
          facetKnot := Function.update st.facetKnot f target
          knotDist := st.knotDist
          knots := st.knots
          numCatched := st.numCatched } (i + 1) hlen
      dsimp only at h1 h2
      refine ⟨?_, fun k hk => h2 k hk⟩
      rw [h1]
      have hmm : min (sk - (i + 1) - 1) rest.length = min (sk - i - 1) (f :: rest).length := by
        simp only [List.length_cons]
        omega
      omega

/-- The outer-loop invariant of `detectKnots`: bookkeeping facts relating
`visited`, `facetKnot`, `knots` and `numCatched`, plus one-step closure of
the successor function on classified facets. -/
structure KnotInv {T : ℕ} (act : Fin T × Fin 4 → Option (Fin T × Fin 4))
    (st : KnotState T) : Prop where
  unvis_zero : ∀ x, st.visited x = false → st.facetKnot x = 0
  len_eq : st.numCatched.length = st.knots.length
  fk_le : ∀ x, st.facetKnot x ≤ st.knots.length
  knot_mem : ∀ k x, x ∈ st.knots.getD k [] →
    st.visited x = true ∧ st.facetKnot x = k + 1
  knot_nodup : ∀ k, (st.knots.getD k []).Nodup
  count : ∀ k, st.numCatched.getD k 0 + (st.knots.getD k []).length =
    (Finset.univ.filter (fun x => st.facetKnot x = k + 1)).card
  step_zero : ∀ x, st.visited x = true → st.facetKnot x = 0 →
    act x = none ∨ ∃ p, act x = some p ∧ st.visited p = true ∧ st.facetKnot p = 0
  step_pos : ∀ x t, st.visited x = true → st.facetKnot x = t + 1 →
    ∃ p, act x = some p ∧ st.visited p = true ∧ st.facetKnot p = t + 1
  reaches : ∀ x t, st.visited x = true → st.facetKnot x = t + 1 →
    feeds act (st.knots.getD t []) x

theorem card_filter_listSet {T : ℕ} (f : Fin T × Fin 4 → ℕ)
    (P : List (Fin T × Fin 4)) (hP : P.Nodup) (w m : ℕ)
    (hm : ∀ x ∈ P, f x ≠ m) :
    (Finset.univ.filter (fun x => (if x ∈ P then w else f x) = m)).card =
      (Finset.univ.filter (fun x => f x = m)).card +
      (if w = m then P.length else 0) := by
  by_cases hw : w = m
  · rw [if_pos hw]
    have hset : Finset.univ.filter (fun x => (if x ∈ P then w else f x) = m) =
        Finset.univ.filter (fun x => f x = m) ∪ P.toFinset := by
      ext x
      by_cases hx : x ∈ P
      · simp [hx, hw]
      · simp [hx]
    rw [hset, Finset.card_union_of_disjoint, List.toFinset_card_of_nodup hP]
    rw [Finset.disjoint_left]
    intro x hx hxP
    rw [Finset.mem_filter] at hx
    rw [List.mem_toFinset] at hxP
    exact hm x hxP hx.2
  · rw [if_neg hw]
    have hset : Finset.univ.filter (fun x => (if x ∈ P then w else f x) = m) =
        Finset.univ.filter (fun x => f x = m) := by
      ext x
      by_cases hx : x ∈ P
      · simp [hx, hw, (hm x hx)]
      · simp [hx]
    rw [hset]
    simp

theorem path_succ {T : ℕ} (act : Fin T × Fin 4 → Option (Fin T × Fin 4))
    (P : List (Fin T × Fin 4)) (hPch : chainList act P)
    (j : ℕ) (x : Fin T × Fin 4) (hj : P.get? j = some x) :
    (∃ y, P.get? (j + 1) = some y ∧ act x = some y) ∨
    (j + 1 = P.length ∧ P.getLast? = some x) := by
  have hjlt : j < P.length := by
    rw [List.get?_eq_getElem?] at hj
    exact (List.getElem?_eq_some.mp hj).1
  by_cases hj1 : j + 1 < P.length
  · left
    have hy : P.get? (j + 1) = some (P.get ⟨j + 1, hj1⟩) := List.get?_eq_get hj1
    exact ⟨P.get ⟨j + 1, hj1⟩, hy, hPch j x _ hj hy⟩
  · right
    have hlen : j + 1 = P.length := by omega
    refine ⟨hlen, ?_⟩
    rw [List.getLast?_eq_getElem?]
    have : P.length - 1 = j := by omega
    rw [this, ← List.get?_eq_getElem?]
    exact hj

theorem orbit_fk {T : ℕ} (act : Fin T × Fin 4 → Option (Fin T × Fin 4))
    (st : KnotState T)
    (hz : ∀ x, st.visited x = true → st.facetKnot x = 0 →
      act x = none ∨ ∃ p, act x = some p ∧ st.visited p = true ∧ st.facetKnot p = 0)
    (hp : ∀ x t, st.visited x = true → st.facetKnot x = t + 1 →
      ∃ p, act x = some p ∧ st.visited p = true ∧ st.facetKnot p = t + 1) :
    ∀ n x p, st.visited x = true → iterSucc act n x = some p →
      st.visited p = true ∧ st.facetKnot p = st.facetKnot x := by
  intro n
  induction n with
  | zero =>
    intro x p hv h
    have : x = p := by simpa [iterSucc] using h
    subst this
    exact ⟨hv, rfl⟩
  | succ n ih =>
    intro x p hv h
    have hstep : ∃ q, act x = some q ∧ st.visited q = true ∧
        st.facetKnot q = st.facetKnot x := by
      match hfx : st.facetKnot x with
      | 0 =>
        rcases hz x hv hfx with hnone | ⟨q, hq, hqv, hqf⟩
        · exfalso
          have : iterSucc act (n + 1) x = none := by
            show (act x).bind _ = none
            rw [hnone]
            rfl
          rw [this] at h
          exact Option.noConfusion h
        · exact ⟨q, hq, hqv, by rw [hqf]⟩
      | t + 1 =>
        rcases hp x t hv hfx with ⟨q, hq, hqv, hqf⟩
        exact ⟨q, hq, hqv, by rw [hqf]⟩
    rcases hstep with ⟨q, hq, hqv, hqf⟩
    have hrest : iterSucc act n q = some p := by
      have hh : iterSucc act (n + 1) x = (act x).bind (iterSucc act n) := rfl
      rw [hh, hq] at h
      exact h
    obtain ⟨hpv, hpf⟩ := ih q p hqv hrest
    exact ⟨hpv, by rw [hpf, hqf]⟩

theorem inv_assign {T : ℕ} (act : Fin T × Fin 4 → Option (Fin T × Fin 4))
    (stb : KnotState T) (target sk : ℕ) (P : List (Fin T × Fin 4))
    (hb1 : ∀ x, stb.visited x = false → stb.facetKnot x = 0)
    (hb2 : stb.numCatched.length = stb.knots.length)
    (hb3 : ∀ x, stb.facetKnot x ≤ stb.knots.length)
    (hb4 : ∀ k x, x ∈ stb.knots.getD k [] →
      (stb.visited x = true ∧ stb.facetKnot x = k + 1) ∨ (x ∈ P ∧ target = k + 1))
    (hb5 : ∀ k, (stb.knots.getD k []).Nodup)
    (hbz : ∀ x, stb.visited x = true → stb.facetKnot x = 0 →
      act x = none ∨ ∃ p, act x = some p ∧ stb.visited p = true ∧ stb.facetKnot p = 0)
    (hbp : ∀ x t, stb.visited x = true → stb.facetKnot x = t + 1 →
      ∃ p, act x = some p ∧ stb.visited p = true ∧ stb.facetKnot p = t + 1)
    (hbr : ∀ x t, stb.visited x = true → stb.facetKnot x = t + 1 →
      feeds act (stb.knots.getD t []) x)
    (hPnd : P.Nodup)
    (hPun : ∀ p ∈ P, stb.visited p = false)
    (hPch : chainList act P)
    (htle : target ≤ stb.knots.length)
    (hlast : ∀ lp, P.getLast? = some lp →
      (target = 0 → act lp = none ∨
        ∃ p, act lp = some p ∧ stb.visited p = true ∧ stb.facetKnot p = 0) ∧
      (∀ t, target = t + 1 → ∃ p, act lp = some p ∧
        (p ∈ P ∨ (stb.visited p = true ∧ stb.facetKnot p = t + 1))))
    (hreach : ∀ t, target = t + 1 → ∀ x ∈ P, feeds act (stb.knots.getD t []) x)
    (hcount : ∀ k, stb.numCatched.getD k 0 +
        (if target = k + 1 then min (sk - 1) P.length else 0) +
        (stb.knots.getD k []).length =
      (Finset.univ.filter (fun x => stb.facetKnot x = k + 1)).card +
      (if target = k + 1 then P.length else 0)) :
    KnotInv act (assignGo target sk stb 0 P) := by
  have hv' : ∀ x, (assignGo target sk stb 0 P).visited x =
      if x ∈ P then true else stb.visited x :=
    fun x => assignGo_visited target sk stb 0 P x
  have hf' : ∀ x, (assignGo target sk stb 0 P).facetKnot x =
      if x ∈ P then target else stb.facetKnot x :=
    fun x => assignGo_facetKnot target sk stb 0 P x
  have hk' : (assignGo target sk stb 0 P).knots = stb.knots :=
    assignGo_knots target sk stb 0 P
  have hnlen : (assignGo target sk stb 0 P).numCatched.length =
      stb.numCatched.length :=
    assignGo_numCatched_length target sk stb 0 P
  have hnum : ∀ k, (assignGo target sk stb 0 P).numCatched.getD k 0 =
      stb.numCatched.getD k 0 +
      (if target = k + 1 then min (sk - 1) P.length else 0) := by
    intro k
    by_cases ht0 : target = 0
    · subst ht0
      rw [assignGo_numCatched_zero]
      simp
    · have hlen : target - 1 < stb.numCatched.length := by
        rw [hb2]
        omega
      obtain ⟨h1, h2⟩ := assignGo_numCatched_getD target sk ht0 P stb 0 hlen
      by_cases hk : k = target - 1
      · subst hk
        rw [if_pos (by omega)]
        rw [h1]
        simp
      · rw [if_neg (by omega)]
        rw [h2 k hk]
        simp
  have hnotP : ∀ p, stb.visited p = true → p ∉ P := by
    intro p hp hpP
    rw [hPun p hpP] at hp
    exact Bool.noConfusion hp
  have hidx : ∀ x ∈ P, ∃ j, P.get? j = some x := by
    intro x hx
    rw [List.mem_iff_getElem?] at hx
    obtain ⟨j, hj⟩ := hx
    exact ⟨j, by rw [List.get?_eq_getElem?]; exact hj⟩
  refine ⟨?_, ?_, ?_, ?_, ?_, ?_, ?_, ?_, ?_⟩
  · -- unvis_zero
    intro x hx
    rw [hv' x] at hx
    by_cases hxP : x ∈ P
    · rw [if_pos hxP] at hx
      exact Bool.noConfusion hx
    · rw [if_neg hxP] at hx
      rw [hf' x, if_neg hxP]
      exact hb1 x hx
  · -- len_eq
    rw [hnlen, hk']
    exact hb2
  · -- fk_le
    intro x
    rw [hf' x, hk']
    by_cases hxP : x ∈ P
    · rw [if_pos hxP]
      exact htle
    · rw [if_neg hxP]
      exact hb3 x
  · -- knot_mem
    intro k x hx
    rw [hk'] at hx
    rcases hb4 k x hx with ⟨hxv, hxf⟩ | ⟨hxP, htk⟩
    · have hxP : x ∉ P := hnotP x hxv
      refine ⟨?_, ?_⟩
      · rw [hv' x, if_neg hxP]
        exact hxv
      · rw [hf' x, if_neg hxP]
        exact hxf
    · refine ⟨?_, ?_⟩
      · rw [hv' x, if_pos hxP]
      · rw [hf' x, if_pos hxP]
        exact htk
  · -- knot_nodup
    intro k
    rw [hk']
    exact hb5 k
  · -- count
    intro k
    rw [hk', hnum k]
    have hm : ∀ x ∈ P, stb.facetKnot x ≠ k + 1 := by
      intro x hx
      rw [hb1 x (hPun x hx)]
      omega
    have hcongr : (Finset.univ.filter
          (fun x => (assignGo target sk stb 0 P).facetKnot x = k + 1)) =
        (Finset.univ.filter
          (fun x => (if x ∈ P then target else stb.facetKnot x) = k + 1)) := by
      apply Finset.filter_congr
      intro x _
      rw [hf' x]
    rw [hcongr, card_filter_listSet stb.facetKnot P hPnd target (k + 1) hm]
    exact hcount k
  · -- step_zero
    intro x hxv hxf
    by_cases hxP : x ∈ P
    · have htt : target = 0 := by
        rw [hf' x, if_pos hxP] at hxf
        exact hxf
      obtain ⟨j, hj⟩ := hidx x hxP
      rcases path_succ act P hPch j x hj with ⟨y, hy, hact⟩ | ⟨_, hlx⟩
      · right
        have hyP : y ∈ P := by
          rw [List.get?_eq_getElem?] at hy
          exact List.getElem?_mem hy
        exact ⟨y, hact, by rw [hv' y, if_pos hyP], by rw [hf' y, if_pos hyP]; exact htt⟩
      · rcases (hlast x hlx).1 htt with hnone | ⟨p, hp, hpv, hpf⟩
        · left
          exact hnone
        · right
          have hpP : p ∉ P := hnotP p hpv
          exact ⟨p, hp, by rw [hv' p, if_neg hpP]; exact hpv,
            by rw [hf' p, if_neg hpP]; exact hpf⟩
    · have hxv0 : stb.visited x = true := by
        rw [hv' x, if_neg hxP] at hxv
        exact hxv
      have hxf0 : stb.facetKnot x = 0 := by
        rw [hf' x, if_neg hxP] at hxf
        exact hxf
      rcases hbz x hxv0 hxf0 with hnone | ⟨p, hp, hpv, hpf⟩
      · left
        exact hnone
      · right
        have hpP : p ∉ P := hnotP p hpv
        exact ⟨p, hp, by rw [hv' p, if_neg hpP]; exact hpv,
          by rw [hf' p, if_neg hpP]; exact hpf⟩
  · -- step_pos
    intro x t hxv hxf
    by_cases hxP : x ∈ P
    · have htt : target = t + 1 := by
        rw [hf' x, if_pos hxP] at hxf
        exact hxf
      obtain ⟨j, hj⟩ := hidx x hxP
      rcases path_succ act P hPch j x hj with ⟨y, hy, hact⟩ | ⟨_, hlx⟩
      · have hyP : y ∈ P := by
          rw [List.get?_eq_getElem?] at hy
          exact List.getElem?_mem hy
        exact ⟨y, hact, by rw [hv' y, if_pos hyP], by rw [hf' y, if_pos hyP]; exact htt⟩
      · rcases (hlast x hlx).2 t htt with ⟨p, hp, hpP | ⟨hpv, hpf⟩⟩
        · exact ⟨p, hp, by rw [hv' p, if_pos hpP],
            by rw [hf' p, if_pos hpP]; exact htt⟩
        · have hpP : p ∉ P := hnotP p hpv
          exact ⟨p, hp, by rw [hv' p, if_neg hpP]; exact hpv,
            by rw [hf' p, if_neg hpP]; exact hpf⟩
    · have hxv0 : stb.visited x = true := by
        rw [hv' x, if_neg hxP] at hxv
        exact hxv
      have hxf0 : stb.facetKnot x = t + 1 := by
        rw [hf' x, if_neg hxP] at hxf
        exact hxf
      rcases hbp x t hxv0 hxf0 with ⟨p, hp, hpv, hpf⟩
      have hpP : p ∉ P := hnotP p hpv
      exact ⟨p, hp, by rw [hv' p, if_neg hpP]; exact hpv,
        by rw [hf' p, if_neg hpP]; exact hpf⟩
  · -- reaches
    intro x t hxv hxf
    rw [hk']
    by_cases hxP : x ∈ P
    · have htt : target = t + 1 := by
        rw [hf' x, if_pos hxP] at hxf
        exact hxf
      exact hreach t htt x hxP
    · have hxv0 : stb.visited x = true := by
        rw [hv' x, if_neg hxP] at hxv
        exact hxv
      have hxf0 : stb.facetKnot x = t + 1 := by
        rw [hf' x, if_neg hxP] at hxf
        exact hxf
      exact hbr x t hxv0 hxf0

theorem getD_append_lt {α : Type} (l l' : List α) (k : ℕ) (d : α)
    (hk : k < l.length) : (l ++ l').getD k d = l.getD k d := by
  rw [List.getD_eq_getElem?_getD, List.getD_eq_getElem?_getD,
    List.getElem?_append_left hk]

theorem getD_concat_self {α : Type} (l : List α) (a d : α) :
    (l ++ [a]).getD l.length d = a := by
  rw [List.getD_eq_getElem?_getD, List.getElem?_concat_length]
  rfl

theorem getD_concat_gt {α : Type} (l : List α) (a d : α) (k : ℕ)
    (hk : l.length < k) : (l ++ [a]).getD k d = d := by
  rw [List.getD_eq_getElem?_getD, List.getElem?_eq_none (by simp; omega)]
  rfl

theorem indexOf_facts {T : ℕ} (P : List (Fin T × Fin 4)) (c : Fin T × Fin 4)
    (h : c ∈ P) : P.indexOf c < P.length ∧ P.get? (P.indexOf c) = some c := by
  induction P with
  | nil => simp at h
  | cons b l ih =>
    rw [List.indexOf_cons]
    by_cases hb : b = c
    · subst hb
      simp
    · have hbeq : (b == c) = false := beq_eq_false_iff_ne.mpr hb
      rw [hbeq]
      have hcl : c ∈ l := by
        rcases List.mem_cons.mp h with h1 | h1
        · exact absurd h1.symm hb
        · exact h1
      obtain ⟨h1, h2⟩ := ih hcl
      refine ⟨?_, ?_⟩
      · simp only [Bool.cond_false, List.length_cons]
        omega
      · simp only [Bool.cond_false]
        rw [List.get?_eq_getElem?, List.getElem?_cons_succ, ← List.get?_eq_getElem?]
        exact h2

theorem processSlot_inv {T : ℕ} (act : Fin T × Fin 4 → Option (Fin T × Fin 4))
    (st : KnotState T) (s : Fin T × Fin 4) (hinv : KnotInv act st) :
    KnotInv act (processSlot act st s) ∧
    (∀ p, st.visited p = true → (processSlot act st s).visited p = true) ∧
    (processSlot act st s).visited s = true := by
  by_cases hvs : st.visited s = true
  · have heq : processSlot act st s = st := by
      unfold processSlot
      rw [if_pos hvs]
    rw [heq]
    exact ⟨hinv, fun p hp => hp, hvs⟩
  · have hvs' : st.visited s = false := by
      cases h : st.visited s
      · rfl
      · exact absurd h hvs
    obtain ⟨⟨ext, hext⟩, hPne, hPnd, hPunv, hPch, hPlast, hPterm⟩ :=
      buildPath_spec act st.visited (4 * T + 1) [s] (act s)
        (by simp)
        (by simp)
        (by
          intro p hp
          rw [List.mem_singleton] at hp
          subst hp
          exact hvs')
        (by
          intro i a b _ h2
          rw [List.get?_eq_getElem?] at h2
          simp at h2)
        (by
          intro lp hlp
          have hsl : s = lp := by simpa using hlp
          rw [hsl])
        (by
          simp only [List.length_singleton]
          omega)
    set P := (buildPath act st.visited (4 * T + 1) [s] (act s)).1 with hPdef
    have hsP : s ∈ P := by
      rw [hext]
      exact List.mem_append_left _ (List.mem_singleton_self s)
    rcases hPterm with hnone | ⟨c, hc, hcase⟩
    · -- open-ended path: target 0
      have heq : processSlot act st s = assignGo 0 (P.length + 1) st 0 P := by
        unfold processSlot
        rw [if_neg hvs]
        dsimp only
        rw [hnone]
      rw [heq]
      refine ⟨inv_assign act st 0 (P.length + 1) P hinv.unvis_zero hinv.len_eq
        hinv.fk_le (fun k x hx => Or.inl (hinv.knot_mem k x hx)) hinv.knot_nodup
        hinv.step_zero hinv.step_pos hinv.reaches hPnd hPunv hPch (Nat.zero_le _)
        ?_ ?_ ?_, ?_, ?_⟩
      · intro lp hlp
        refine ⟨fun _ => Or.inl ?_, fun t ht => absurd ht (by omega)⟩
        rw [← hPlast lp hlp]
        exact hnone
      · intro t ht
        exact absurd ht (by omega)
      · intro k
        rw [if_neg (by omega : ¬(0 : ℕ) = k + 1), if_neg (by omega : ¬(0 : ℕ) = k + 1)]
        simp only [Nat.add_zero]
        exact hinv.count k
      · intro p hp
        rw [assignGo_visited]
        split
        · rfl
        · exact hp
      · rw [assignGo_visited, if_pos hsP]
    · by_cases hvc : st.visited c = true
      · -- path ran into an already-classified facet
        have heq : processSlot act st s =
            assignGo (st.facetKnot c) (P.length + 1 + st.knotDist c) st 0 P := by
          unfold processSlot
          rw [if_neg hvs]
          dsimp only
          rw [hc]
          dsimp only
          rw [if_pos hvc]
        rw [heq]
        refine ⟨inv_assign act st (st.facetKnot c) (P.length + 1 + st.knotDist c) P
          hinv.unvis_zero hinv.len_eq hinv.fk_le
          (fun k x hx => Or.inl (hinv.knot_mem k x hx)) hinv.knot_nodup
          hinv.step_zero hinv.step_pos hinv.reaches hPnd hPunv hPch
          (hinv.fk_le c) ?_ ?_ ?_, ?_, ?_⟩
        · intro lp hlp
          have hact : act lp = some c := by
            rw [← hPlast lp hlp]
            exact hc
          exact ⟨fun ht0 => Or.inr ⟨c, hact, hvc, ht0⟩,
            fun t ht => ⟨c, hact, Or.inr ⟨hvc, ht⟩⟩⟩
        · intro t ht x hx
          obtain ⟨lp, hlp⟩ := Option.isSome_iff_exists.mp (List.getLast?_isSome.mpr hPne)
          have hact : act lp = some c := by
            rw [← hPlast lp hlp]
            exact hc
          obtain ⟨j, hj⟩ : ∃ j, P.get? j = some x := by
            rw [List.mem_iff_getElem?] at hx
            obtain ⟨j, hj⟩ := hx
            exact ⟨j, by rw [List.get?_eq_getElem?]; exact hj⟩
          have horb : iterSucc act (P.length - j) x = some c := by
            have h := chain_orbit_exit act P lp (some c) hPch hlp hact.symm
              j x (P.length - j) hj (le_refl _)
            rw [Nat.sub_self] at h
            simpa [iterSucc] using h
          obtain ⟨n2, p, horb2, hp⟩ := hinv.reaches c t hvc ht
          refine ⟨(P.length - j) + n2, p, ?_, hp⟩
          rw [iterSucc_add, horb]
          simpa using horb2
        · intro k
          by_cases hfk : st.facetKnot c = k + 1
          · rw [if_pos hfk, if_pos hfk]
            have hmin : min (P.length + 1 + st.knotDist c - 1) P.length = P.length := by
              omega
            rw [hmin]
            have := hinv.count k
            omega
          · rw [if_neg hfk, if_neg hfk]
            have := hinv.count k
            omega
        · intro p hp
          rw [assignGo_visited]
          split
          · rfl
          · exact hp
        · rw [assignGo_visited, if_pos hsP]
      · -- fresh knot: the path closed on itself at index `indexOf c`
        have hcP : c ∈ P := by
          rcases hcase with h | h
          · exact absurd h hvc
          · exact h
        obtain ⟨hidxlt, hgetidx⟩ := indexOf_facts P c hcP
        have heq : processSlot act st s =
            assignGo (st.knots.length + 1) (P.indexOf c + 1)
              { st with knots := st.knots ++ [P.drop (P.indexOf c)]
                        numCatched := st.numCatched ++ [0] } 0 P := by
          unfold processSlot
          rw [if_neg hvs]
          dsimp only
          rw [hc]
          dsimp only
          rw [if_neg hvc]
          simp only [Nat.add_sub_cancel, List.length_append, List.length_singleton]
        rw [heq]
        refine ⟨inv_assign act
          { st with knots := st.knots ++ [P.drop (P.indexOf c)]
                    numCatched := st.numCatched ++ [0] }
          (st.knots.length + 1) (P.indexOf c + 1) P
          hinv.unvis_zero ?_ ?_ ?_ ?_ hinv.step_zero hinv.step_pos ?_
          hPnd hPunv hPch ?_ ?_ ?_ ?_, ?_, ?_⟩
        · -- numCatched and knots lengths stay equal
          dsimp only
          simp only [List.length_append, List.length_singleton]
          rw [hinv.len_eq]
        · -- facetKnot still bounded by the (extended) knot count
          intro x
          dsimp only
          simp only [List.length_append, List.length_singleton]
          have := hinv.fk_le x
          omega
        · -- members of stored knots: old ones classified, the new one is on P
          intro k x hx
          dsimp only at hx ⊢
          rcases Nat.lt_trichotomy k st.knots.length with hk | hk | hk
          · rw [getD_append_lt _ _ _ _ hk] at hx
            exact Or.inl (hinv.knot_mem k x hx)
          · subst hk
            rw [getD_concat_self] at hx
            exact Or.inr ⟨List.mem_of_mem_drop hx, rfl⟩
          · rw [getD_concat_gt _ _ _ _ hk] at hx
            simp at hx
        · -- every stored knot is duplicate-free
          intro k
          dsimp only
          rcases Nat.lt_trichotomy k st.knots.length with hk | hk | hk
          · rw [getD_append_lt _ _ _ _ hk]
            exact hinv.knot_nodup k
          · subst hk
            rw [getD_concat_self]
            exact List.Sublist.nodup (List.drop_sublist _ _) hPnd
          · rw [getD_concat_gt _ _ _ _ hk]
            exact List.nodup_nil
        · -- old classified facets still reach their (unchanged) knot
          intro x t hv hf
          dsimp only at hv hf ⊢
          have htL : t < st.knots.length := by
            have := hinv.fk_le x
            omega
          rw [getD_append_lt _ _ _ _ htL]
          exact hinv.reaches x t hv hf
        · -- the new target index is in range
          dsimp only
          simp
        · -- the path's last link falls back into the path itself
          intro lp hlp
          have hact : act lp = some c := by
            rw [← hPlast lp hlp]
            exact hc
          exact ⟨fun ht0 => absurd ht0 (by omega), fun t _ => ⟨c, hact, Or.inl hcP⟩⟩
        · -- every path entry reaches the new knot
          intro t ht x hx
          dsimp only
          have htL : t = st.knots.length := by omega
          subst htL
          rw [getD_concat_self]
          obtain ⟨j, hj⟩ : ∃ j, P.get? j = some x := by
            rw [List.mem_iff_getElem?] at hx
            obtain ⟨j, hj⟩ := hx
            exact ⟨j, by rw [List.get?_eq_getElem?]; exact hj⟩
          by_cases hji : P.indexOf c ≤ j
          · have hK : (P.drop (P.indexOf c)).get? (j - P.indexOf c) = some x := by
              rw [List.get?_drop]
              have harith : P.indexOf c + (j - P.indexOf c) = j := by omega
              rw [harith]
              exact hj
            have hxK : x ∈ P.drop (P.indexOf c) := by
              rw [List.get?_eq_getElem?] at hK
              exact List.getElem?_mem hK
            exact ⟨0, x, rfl, hxK⟩
          · have horb : iterSucc act (P.indexOf c - j) x = some c := by
              have h := chain_orbit act P hPch (P.indexOf c - j) j x hj (by omega)
              rw [h]
              have harith : j + (P.indexOf c - j) = P.indexOf c := by omega
              rw [harith]
              exact hgetidx
            have hcK : c ∈ P.drop (P.indexOf c) := by
              have hK : (P.drop (P.indexOf c)).get? 0 = some c := by
                rw [List.get?_drop, Nat.add_zero]
                exact hgetidx
              rw [List.get?_eq_getElem?] at hK
              exact List.getElem?_mem hK
            exact ⟨P.indexOf c - j, c, horb, hcK⟩
        · -- the counting ledger before the assignment loop
          intro k
          dsimp only
          by_cases hkL : st.knots.length + 1 = k + 1
          · rw [if_pos hkL, if_pos hkL]
            have hkk : k = st.knots.length := by omega
            subst hkk
            have hnum0 : (st.numCatched ++ [0]).getD st.knots.length 0 = 0 := by
              rw [← hinv.len_eq, getD_concat_self]
            have hknot : (st.knots ++ [P.drop (P.indexOf c)]).getD st.knots.length [] =
                P.drop (P.indexOf c) := getD_concat_self _ _ _
            rw [hnum0, hknot]
            have hcard : (Finset.univ.filter
                (fun x => st.facetKnot x = st.knots.length + 1)).card = 0 := by
              rw [Finset.card_eq_zero, Finset.filter_eq_empty_iff]
              intro x _
              have := hinv.fk_le x
              omega
            rw [hcard]
            simp only [List.length_drop]
            omega
          · rw [if_neg hkL, if_neg hkL]
            simp only [Nat.add_zero]
            rcases Nat.lt_trichotomy k st.knots.length with hk | hk | hk
            · have hkn : k < st.numCatched.length := by
                rw [hinv.len_eq]
                omega
              rw [getD_append_lt _ _ _ _ hkn, getD_append_lt _ _ _ _ hk]
              exact hinv.count k
            · omega
            · have hkn : st.numCatched.length < k := by
                rw [hinv.len_eq]
                omega
              rw [getD_concat_gt _ _ _ _ hkn, getD_concat_gt _ _ _ _ hk]
              have hcard : (Finset.univ.filter
                  (fun x => st.facetKnot x = k + 1)).card = 0 := by
                rw [Finset.card_eq_zero, Finset.filter_eq_empty_iff]
                intro x _
                have := hinv.fk_le x
                omega
              rw [hcard]
              simp
        · intro p hp
          rw [assignGo_visited]
          split
          · rfl
          · exact hp
        · rw [assignGo_visited, if_pos hsP]

theorem knotInv_init {T : ℕ} (act : Fin T × Fin 4 → Option (Fin T × Fin 4)) :
    KnotInv act (⟨fun _ => false, fun _ => 0, fun _ => 0, [], []⟩ : KnotState T) := by
  refine ⟨?_, ?_, ?_, ?_, ?_, ?_, ?_, ?_, ?_⟩
  · intro x _
    rfl
  · rfl
  · intro x
    exact Nat.le_refl 0
  · intro k x hx
    simp [List.getD] at hx
  · intro k
    simp [List.getD]
  · intro k
    have hfil : (Finset.univ.filter
        (fun x : Fin T × Fin 4 => (0 : ℕ) = k + 1)) = ∅ := by
      rw [Finset.filter_eq_empty_iff]
      intro x _
      omega
    simp [List.getD, hfil]
  · intro x hx
    exact Bool.noConfusion hx
  · intro x t hx
    exact absurd hx (Bool.noConfusion)
  · intro x t hx
    exact absurd hx (Bool.noConfusion)

theorem foldl_processSlot_inv {T : ℕ}
    (act : Fin T × Fin 4 → Option (Fin T × Fin 4)) :
    ∀ (l : List (Fin T × Fin 4)) (st : KnotState T), KnotInv act st →
      KnotInv act (l.foldl (processSlot act) st) ∧
      (∀ p, st.visited p = true → (l.foldl (processSlot act) st).visited p = true) ∧
      (∀ s ∈ l, (l.foldl (processSlot act) st).visited s = true) := by
  intro l
  induction l with
  | nil =>
    intro st hinv
    exact ⟨hinv, fun p hp => hp, by simp⟩
  | cons s l ih =>
    intro st hinv
    obtain ⟨hinv1, hmono1, hs1⟩ := processSlot_inv act st s hinv
    obtain ⟨hinv2, hmono2, hl2⟩ := ih (processSlot act st s) hinv1
    refine ⟨hinv2, fun p hp => hmono2 p (hmono1 p hp), ?_⟩
    intro x hx
    rcases List.mem_cons.mp hx with hx | hx
    · subst hx
      exact hmono2 x hs1
    · exact hl2 x hx

theorem mem_allFacets {T : ℕ} (x : Fin T × Fin 4) : x ∈ allFacets T := by
  unfold allFacets
  rw [List.mem_flatMap]
  exact ⟨x.1, List.mem_finRange x.1,
    List.mem_map.mpr ⟨x.2, List.mem_finRange x.2, rfl⟩⟩

theorem detectKnots_inv {T : ℕ} (act : Fin T × Fin 4 → Option (Fin T × Fin 4)) :
    KnotInv act (detectKnots T act) ∧
    ∀ s, (detectKnots T act).visited s = true := by
  obtain ⟨hinv, _, hall⟩ :=
    foldl_processSlot_inv act (allFacets T)
      ⟨fun _ => false, fun _ => 0, fun _ => 0, [], []⟩ (knotInv_init act)
  exact ⟨hinv, fun s => hall s (mem_allFacets s)⟩

/-- Example successor table on one tetrahedron: facets 0 → 1 → 2 → 0 form a
3-cycle, facet 3 feeds into it. -/
def knotExampleAct : Fin 1 × Fin 4 → Option (Fin 1 × Fin 4) :=
  fun s =>
    if s.2 = (0 : Fin 4) then some (0, 1)
    else if s.2 = (1 : Fin 4) then some (0, 2)
    else if s.2 = (2 : Fin 4) then some (0, 0)
    else some (0, 0)

/-- **C3**: for every successor table over the facets, `detectKnots` assigns
every facet exactly one traversal outcome (every facet is visited, and its
knot label is either 0 or a valid knot index), knots are pairwise disjoint
and duplicate-free (no facet is double-counted), and for every knot `k` the
sum of `numCatched[k]` and the length of knot `k` equals the number of
facets whose successor path terminates in knot `k` — knot members at
distance 0, off-knot feeders each counted once. -/
theorem knot_detection_accounting (T : ℕ)
    (act : Fin T × Fin 4 → Option (Fin T × Fin 4)) :
    (∀ s, (detectKnots T act).visited s = true) ∧
    (∀ s, (detectKnots T act).facetKnot s ≤ (detectKnots T act).knots.length) ∧
    (∀ k1 k2, k1 ≠ k2 → ∀ s ∈ (detectKnots T act).knots.getD k1 [],
      s ∉ (detectKnots T act).knots.getD k2 []) ∧
    (∀ k, ((detectKnots T act).knots.getD k []).Nodup) ∧
    (∀ k, (detectKnots T act).numCatched.getD k 0 +
        ((detectKnots T act).knots.getD k []).length =
      Set.ncard {s | feeds act ((detectKnots T act).knots.getD k []) s}) := by
  obtain ⟨hinv, hall⟩ := detectKnots_inv act
  refine ⟨hall, hinv.fk_le, ?_, hinv.knot_nodup, ?_⟩
  · intro k1 k2 hk s hs1 hs2
    have h1 := (hinv.knot_mem k1 s hs1).2
    have h2 := (hinv.knot_mem k2 s hs2).2
    rw [h1] at h2
    omega
  · intro k
    have hset : {s | feeds act ((detectKnots T act).knots.getD k []) s} =
        ↑(Finset.univ.filter
          (fun s => (detectKnots T act).facetKnot s = k + 1)) := by
      ext x
      simp only [Set.mem_setOf_eq, Finset.mem_coe, Finset.mem_filter,
        Finset.mem_univ, true_and]
      constructor
      · rintro ⟨n, p, horb, hp⟩
        have hpfk := (hinv.knot_mem k p hp).2
        obtain ⟨_, hfk⟩ := orbit_fk act (detectKnots T act) hinv.step_zero
          hinv.step_pos n x p (hall x) horb
        rw [← hfk]
        exact hpfk
      · intro hfk
        exact hinv.reaches x k (hall x) hfk
    rw [hset, Set.ncard_coe_Finset]
    exact hinv.count k

theorem knot_detection_accounting_witness :
    ((0, 0) : Fin 1 × Fin 4) ∉ (detectKnots 1 knotExampleAct).knots.getD 1 [] :=
  (knot_detection_accounting 1 knotExampleAct).2.2.1 0 1 (by decide)
    ((0, 0) : Fin 1 × Fin 4) (by decide)
